import Mathlib

/-!
Verification of the log-retina core (src/src/App.tsx, src/src/components/Timeline.tsx).

The TypeScript core is shallowly embedded: pure functions become Lean functions
over `List Char` / `String`, JavaScript runtime builtins (JSON.parse,
JSON.stringify, String(), new Date(...).getTime(), Date.now(),
new Date().toISOString()) are passed as an explicit environment, the module
level mutable id counter becomes explicit state passing, and JavaScript number
arithmetic in the timeline bucketizer is modelled over ℚ.  Regex matching is
embedded by direct implementations of the concrete patterns appearing in the
source, with JavaScript leftmost-match and greedy/backtracking semantics.
-/

set_option maxHeartbeats 1000000

/-- The ASCII part of the JavaScript whitespace class \s, as used by
`String.prototype.trim` and the regexes of the source. -/
def isJsSpace (c : Char) : Bool :=
  c = ' ' || c = '\t' || c = '\n' || c = '\r' || c = '\x0b' || c = '\x0c'

/-- Trim JS whitespace from both ends of a character list (JS `trim()`). -/
def trimL (cs : List Char) : List Char :=
  ((cs.dropWhile isJsSpace).reverse.dropWhile isJsSpace).reverse

/-- JS `String.prototype.trim`. -/
def jsTrim (s : String) : String := ⟨trimL s.data⟩

/-- JS `String.prototype.toLowerCase` (ASCII fragment, which is all the source
ever feeds it for classification purposes). -/
def jsToLower (s : String) : String := ⟨s.data.map Char.toLower⟩

/-- Does the list start with the given pattern? (core of JS `startsWith` and of
anchored regex matching). -/
def startsWithL : List Char → List Char → Bool
  | _, [] => true
  | [], _ :: _ => false
  | c :: cs, p :: ps => c == p && startsWithL cs ps

/-- Does `hay` contain `pat` as a contiguous substring? (JS `includes`). -/
def containsL : List Char → List Char → Bool
  | [], pat => pat.isEmpty
  | c :: cs, pat => startsWithL (c :: cs) pat || containsL cs pat

/-- JS `String.prototype.includes`. -/
def strContains (s pat : String) : Bool := containsL s.data pat.data

/-- Remove the first occurrence of `pat` from `hay`; if `pat` does not occur,
return `hay` unchanged (JS `String.prototype.replace(pat, '')` with a string
pattern). -/
def removeFirstL (hay pat : List Char) : List Char :=
  match hay with
  | [] => []
  | c :: cs =>
    if startsWithL (c :: cs) pat then (c :: cs).drop pat.length
    else c :: removeFirstL cs pat

/-- Replace the first occurrence of character `a` by `b`
(JS `String.prototype.replace(' ', 'T')`). -/
def replFirstChar (a b : Char) : List Char → List Char
  | [] => []
  | c :: cs => if c = a then b :: cs else c :: replFirstChar a b cs

/-- JS `String.prototype.split('\n')`: split on every newline, keeping empty
segments. -/
def splitNl : List Char → List (List Char)
  | [] => [[]]
  | c :: cs =>
    if c = '\n' then [] :: splitNl cs
    else
      match splitNl cs with
      | [] => [[c]]
      | seg :: rest => (c :: seg) :: rest

/-- The decimal digit characters, as produced by JavaScript number-to-string
conversion of a natural number. -/
def digitCh (n : Nat) : Char :=
  if n = 0 then '0' else
  if n = 1 then '1' else
  if n = 2 then '2' else
  if n = 3 then '3' else
  if n = 4 then '4' else
  if n = 5 then '5' else
  if n = 6 then '6' else
  if n = 7 then '7' else
  if n = 8 then '8' else
  '9'

/-- Fuel-driven decimal conversion (structurally recursive so that the kernel
can evaluate it). -/
def natDecCore : Nat → Nat → List Char → List Char
  | 0, _, acc => acc
  | fuel + 1, n, acc =>
    let d := digitCh (n % 10)
    if n / 10 = 0 then d :: acc else natDecCore fuel (n / 10) (d :: acc)

/-- JavaScript decimal string of a natural number (as produced by a template
literal such as the one in `generateId`). -/
def natDecStr (n : Nat) : String := ⟨natDecCore (n + 1) n []⟩

/-- Proof-side decimal digit list, by well-founded recursion on the value. -/
def natDigits (n : Nat) : List Char :=
  if _h : n < 10 then [digitCh n]
  else natDigits (n / 10) ++ [digitCh (n % 10)]
decreasing_by exact Nat.div_lt_self (by omega) (by omega)

/-- Embedding of `generateId` from src/src/App.tsx: the template literal
`log-${Date.now()}-${idCounter++}`.  `Date.now()` is the `nowMs` component of
the environment; the post-incremented module counter is passed explicitly. -/
def generateId (nowMs : Nat) (ctr : Nat) : String :=
  "log-" ++ natDecStr nowMs ++ "-" ++ natDecStr ctr

/-- The five severity levels of the data model (src/src/types/log.ts). -/
inductive LogLevel where
  | debug | info | warn | error | fatal
deriving DecidableEq

/-- The literal level strings used by the TypeScript union type. -/
def levelName : LogLevel → String
  | .debug => "debug"
  | .info => "info"
  | .warn => "warn"
  | .error => "error"
  | .fatal => "fatal"

/-- Embedding of `detectLogLevel` from src/src/App.tsx. -/
def detectLogLevel (text : String) : LogLevel :=
  let lowerText := jsToLower text
  if strContains lowerText "fatal" || strContains lowerText "critical" then .fatal
  else if strContains lowerText "error" || strContains lowerText "err]" ||
      lowerText == "error" then .error
  else if strContains lowerText "warn" || strContains lowerText "warning" then .warn
  else if strContains lowerText "debug" || strContains lowerText "dbg" then .debug
  else if strContains lowerText "info" then .info
  else .info

/-- Match exactly `k` decimal digits at the head of the list, returning the
matched characters and the remainder (regex `\d{k}`). -/
def takeDigits : Nat → List Char → Option (List Char × List Char)
  | 0, cs => some ([], cs)
  | _ + 1, [] => none
  | k + 1, c :: cs =>
    if c.isDigit then (takeDigits k cs).map (fun p => (c :: p.1, p.2))
    else none

/-- Match one literal character at the head of the list. -/
def takeLit (ch : Char) : List Char → Option (List Char × List Char)
  | [] => none
  | c :: cs => if c = ch then some ([c], cs) else none

/-- Greedy match of the optional fractional-seconds group `(\.\d+)?`:
a dot followed by at least one digit, taking as many digits as possible;
on failure the group matches the empty string. -/
def matchFrac (cs : List Char) : List Char × List Char :=
  match cs with
  | '.' :: rest =>
    let ds := rest.takeWhile Char.isDigit
    if ds.isEmpty then ([], cs) else ('.' :: ds, rest.dropWhile Char.isDigit)
  | _ => ([], cs)

/-- Greedy match of the optional zone group `(Z|[+-]\d{2}:?\d{2})?` with
JavaScript backtracking semantics; on failure the group matches the empty
string. -/
def matchZone (cs : List Char) : List Char × List Char :=
  match cs with
  | [] => ([], [])
  | c :: rest =>
    if c = 'Z' then ([c], rest)
    else if c = '+' || c = '-' then
      match takeDigits 2 rest with
      | none => ([], cs)
      | some (d1, r1) =>
        match r1 with
        | ':' :: r2 =>
          match takeDigits 2 r2 with
          | some (d2, r3) => (c :: d1 ++ ':' :: d2, r3)
          | none => ([], cs)
        | _ =>
          match takeDigits 2 r1 with
          | some (d2, r3) => (c :: d1 ++ d2, r3)
          | none => ([], cs)
    else ([], cs)

/-- Anchored match of the ISO 8601 pattern
`\d{4}-\d{2}-\d{2}T\d{2}:\d{2}:\d{2}(\.\d+)?(Z|[+-]\d{2}:?\d{2})?`
at the head of the list, returning the matched substring. -/
def matchIsoAt (cs : List Char) : Option (List Char) := do
  let (y, r1) ← takeDigits 4 cs
  let (h1, r2) ← takeLit '-' r1
  let (mo, r3) ← takeDigits 2 r2
  let (h2, r4) ← takeLit '-' r3
  let (da, r5) ← takeDigits 2 r4
  let (tl, r6) ← takeLit 'T' r5
  let (hh, r7) ← takeDigits 2 r6
  let (c1, r8) ← takeLit ':' r7
  let (mi, r9) ← takeDigits 2 r8
  let (c2, r10) ← takeLit ':' r9
  let (ss, r11) ← takeDigits 2 r10
  let (fr, r12) := matchFrac r11
  let (zo, _) := matchZone r12
  return y ++ h1 ++ mo ++ h2 ++ da ++ tl ++ hh ++ c1 ++ mi ++ c2 ++ ss ++ fr ++ zo

/-- Anchored match of the common log pattern
`\d{4}-\d{2}-\d{2}\s+\d{2}:\d{2}:\d{2}(\.\d+)?` at the head of the list,
returning the matched substring. -/
def matchCommonAt (cs : List Char) : Option (List Char) := do
  let (y, r1) ← takeDigits 4 cs
  let (h1, r2) ← takeLit '-' r1
  let (mo, r3) ← takeDigits 2 r2
  let (h2, r4) ← takeLit '-' r3
  let (da, r5) ← takeDigits 2 r4
  let sp := r5.takeWhile isJsSpace
  if sp.isEmpty then none else
  let r6 := r5.dropWhile isJsSpace
  let (hh, r7) ← takeDigits 2 r6
  let (c1, r8) ← takeLit ':' r7
  let (mi, r9) ← takeDigits 2 r8
  let (c2, r10) ← takeLit ':' r9
  let (ss, r11) ← takeDigits 2 r10
  let (fr, _) := matchFrac r11
  return y ++ h1 ++ mo ++ h2 ++ da ++ sp ++ hh ++ c1 ++ mi ++ c2 ++ ss ++ fr

/-- JS regex word character class `\w` = `[A-Za-z0-9_]`. -/
def isWordCh (c : Char) : Bool :=
  ('a' ≤ c && c ≤ 'z') || ('A' ≤ c && c ≤ 'Z') || c.isDigit || c = '_'

/-- Match exactly `k` word characters (regex `\w{k}`). -/
def takeWordChs : Nat → List Char → Option (List Char × List Char)
  | 0, cs => some ([], cs)
  | _ + 1, [] => none
  | k + 1, c :: cs =>
    if isWordCh c then (takeWordChs k cs).map (fun p => (c :: p.1, p.2))
    else none

/-- Anchored match of the Apache/nginx pattern
`\d{2}\/\w{3}\/\d{4}:\d{2}:\d{2}:\d{2}` at the head of the list, returning the
capture groups (day, month word, year, hour, minute, second) of the follow-up
capture regex applied by the source to the matched substring. -/
def matchApacheAt (cs : List Char) :
    Option (List Char × List Char × List Char × List Char × List Char × List Char) := do
  let (da, r1) ← takeDigits 2 cs
  let (_, r2) ← takeLit '/' r1
  let (mo, r3) ← takeWordChs 3 r2
  let (_, r4) ← takeLit '/' r3
  let (y, r5) ← takeDigits 4 r4
  let (_, r6) ← takeLit ':' r5
  let (hh, r7) ← takeDigits 2 r6
  let (_, r8) ← takeLit ':' r7
  let (mi, r9) ← takeDigits 2 r8
  let (_, r10) ← takeLit ':' r9
  let (ss, _) ← takeDigits 2 r10
  return (da, mo, y, hh, mi, ss)

/-- Leftmost-match regex search: try the anchored matcher at every position,
left to right (JS `String.prototype.match` without the global flag). -/
def scanMatch {α : Type} (m : List Char → Option α) : List Char → Option α
  | [] => m []
  | c :: cs =>
    match m (c :: cs) with
    | some r => some r
    | none => scanMatch m cs

/-- The month-abbreviation table of `extractTimestamp`
(a JS object literal; a missing key yields `undefined`, which the template
literal of the source renders as the text "undefined"). -/
def monthNum (m : String) : String :=
  (List.lookup m
    [("Jan", "01"), ("Feb", "02"), ("Mar", "03"), ("Apr", "04"),
     ("May", "05"), ("Jun", "06"), ("Jul", "07"), ("Aug", "08"),
     ("Sep", "09"), ("Oct", "10"), ("Nov", "11"), ("Dec", "12")]).getD "undefined"

/-- Embedding of `extractTimestamp` from src/src/App.tsx: ordered first-match
attempts of the three timestamp patterns over the raw line. -/
def extractTimestamp (line : String) : Option String :=
  match scanMatch matchIsoAt line.data with
  | some m => some ⟨m⟩
  | none =>
  match scanMatch matchCommonAt line.data with
  | some m => some (⟨replFirstChar ' ' 'T' m⟩ ++ "Z")
  | none =>
  match scanMatch matchApacheAt line.data with
  | some (da, mo, y, hh, mi, ss) =>
    some ((⟨y⟩ : String) ++ "-" ++ monthNum ⟨mo⟩ ++ "-" ++ (⟨da⟩ : String) ++ "T" ++
      (⟨hh⟩ : String) ++ ":" ++ (⟨mi⟩ : String) ++ ":" ++ (⟨ss⟩ : String) ++ "Z")
  | none => none

/-- JSON values, as produced by the runtime `JSON.parse`. -/
inductive Json where
  | null
  | bool (b : Bool)
  | num (q : ℚ)
  | str (s : String)
  | arr (elems : List Json)
  | obj (fields : List (String × Json))

/-- JS property access `parsed.key` on a decoded value: `none` models the JS
`undefined` result on a missing key or a non-object receiver. -/
def jget (j : Json) (k : String) : Option Json :=
  match j with
  | .obj fields => List.lookup k fields
  | _ => none

/-- JS truthiness of a possibly-undefined value. -/
def jTruthy : Option Json → Bool
  | none => false
  | some .null => false
  | some (.bool b) => b
  | some (.num q) => !(q = 0)
  | some (.str s) => !(s = "")
  | some (.arr _) => true
  | some (.obj _) => true

/-- Value of the JS expression `x1 || x2 || ... || dflt`: the first truthy
operand, else the final (default) operand. -/
def firstTruthy : List (Option Json) → Json → Json
  | [], d => d
  | x :: xs, d => if jTruthy x then x.getD d else firstTruthy xs d

/-- The JavaScript runtime facilities used by the core, as an explicit
environment: `jsonParse` is `JSON.parse` (returning `none` where the runtime
would throw), `stringify` is `JSON.stringify`, `toStr` is the `String(...)`
conversion, `dateParse` is `new Date(x).getTime()` returning `none` for an
invalid date (NaN), `nowIso` is `new Date().toISOString()` and `nowMs` is
`Date.now()`, both taken constant over one synchronous run. -/
structure JsEnv where
  jsonParse : String → Option Json
  stringify : Json → String
  toStr : Json → String
  dateParse : Json → Option Int
  nowIso : String
  nowMs : Nat

/-- The normalized entry model (src/src/types/log.ts).  `dt` is kept as a JSON
value because the structured-data parser stores whatever value the source
field held; for text parsers it is always a string. -/
structure LogEntry where
  id : String
  dt : Json
  level : LogLevel
  pid : Option Json
  hostname : Option Json
  message : String
  message_field : Option Json
  data : Option Json
  raw : Option String

/-- Embedding of `parseJsonLog` from src/src/App.tsx.  The explicit counter is
the module-level `idCounter`; it advances only when an entry is created. -/
def parseJsonLog (env : JsEnv) (line : String) (ctr : Nat) : Option LogEntry × Nat :=
  match env.jsonParse line with
  | none => (none, ctr)
  | some parsed =>
    let levelRaw := firstTruthy
      [jget parsed "level", jget parsed "severity", jget parsed "log_level",
       jget parsed "loglevel"] (.str "info")
    let level := detectLogLevel (env.toStr levelRaw)
    let timestamp := firstTruthy
      [jget parsed "dt", jget parsed "timestamp", jget parsed "time",
       jget parsed "@timestamp", jget parsed "date", jget parsed "datetime"]
      (.str env.nowIso)
    let message := firstTruthy
      [jget parsed "message", jget parsed "msg", jget parsed "text",
       jget parsed "log", jget parsed "body"] (.str (env.stringify parsed))
    (some
      { id := generateId env.nowMs ctr
        dt := timestamp
        level := level
        pid := jget parsed "pid"
        hostname := if jTruthy (jget parsed "hostname") then jget parsed "hostname"
                    else jget parsed "host"
        message := match message with
                   | .str s => s
                   | m => env.stringify m
        message_field := jget parsed "message_field"
        data := some parsed
        raw := some line }, ctr + 1)

/-- Anchored match of `^\[([^\]]+)\]\s*\[([^\]]+)\]\s*(.+)$`, returning the
three capture groups.  JS `.` does not match a carriage return (and a line,
being a `split('\n')` segment, cannot contain a newline), so a remainder
containing `\x0d` never satisfies `(.+)$`; on an all-whitespace remainder the
greedy `\s*` backtracks by exactly one character so that `(.+)` can take it. -/
def matchStructured (cs : List Char) : Option (List Char × List Char × List Char) :=
  match cs with
  | '[' :: r1 =>
    let a := r1.takeWhile (fun c => !(c = ']'))
    if a.isEmpty then none else
    match r1.dropWhile (fun c => !(c = ']')) with
    | ']' :: r2 =>
      match r2.dropWhile isJsSpace with
      | '[' :: r3 =>
        let b := r3.takeWhile (fun c => !(c = ']'))
        if b.isEmpty then none else
        match r3.dropWhile (fun c => !(c = ']')) with
        | ']' :: r4 =>
          let body := r4.dropWhile isJsSpace
          if !body.isEmpty then
            if body.contains '\x0d' then none else some (a, b, body)
          else
            match r4.getLast? with
            | some c => if c = '\x0d' then none else some (a, b, [c])
            | none => none
        | _ => none
      | _ => none
    | _ => none
  | _ => none

/-- Embedding of `parseStructuredTextLog` from src/src/App.tsx. -/
def parseStructuredTextLog (env : JsEnv) (line : String) (ctr : Nat) :
    Option LogEntry × Nat :=
  match matchStructured line.data with
  | none => (none, ctr)
  | some (timestampPart, levelPart, restL) =>
    let rest : String := ⟨restL⟩
    let level := detectLogLevel ⟨levelPart⟩
    let dm : Option Json × String :=
      if startsWithL (jsTrim rest).data ['\x7b'] then
        match env.jsonParse rest with
        | some parsed =>
          let msgValue := firstTruthy [jget parsed "message", jget parsed "msg"]
            (.str rest)
          (some parsed,
           match msgValue with
           | .str s => s
           | m => env.stringify m)
        | none => (none, rest)
      else (none, rest)
    (some
      { id := generateId env.nowMs ctr
        dt := .str (if containsL timestampPart ['T'] then (⟨timestampPart⟩ : String)
                    else (⟨replFirstChar ' ' 'T' timestampPart⟩ : String) ++ "Z")
        level := level
        pid := none
        hostname := none
        message := dm.2
        message_field := none
        data := dm.1
        raw := some line }, ctr + 1)

/-- Anchored strip of the leading date pattern
`^\d{4}-\d{2}-\d{2}\s+\d{2}:\d{2}:\d{2}(\.\d+)?\s*` (the second cleanup
`replace` of `parsePlainTextLog`); returns the remainder, or the input
unchanged when the pattern does not match. -/
def stripLeadingDate (cs : List Char) : List Char :=
  (Option.getD · cs) <| do
    let (_, r1) ← takeDigits 4 cs
    let (_, r2) ← takeLit '-' r1
    let (_, r3) ← takeDigits 2 r2
    let (_, r4) ← takeLit '-' r3
    let (_, r5) ← takeDigits 2 r4
    if (r5.takeWhile isJsSpace).isEmpty then none else
    let r6 := r5.dropWhile isJsSpace
    let (_, r7) ← takeDigits 2 r6
    let (_, r8) ← takeLit ':' r7
    let (_, r9) ← takeDigits 2 r8
    let (_, r10) ← takeLit ':' r9
    let (_, r11) ← takeDigits 2 r10
    let (_, r12) := matchFrac r11
    return r12.dropWhile isJsSpace

/-- The bracketed level words of the cleanup regex
`^\s*\[(INFO|WARN|WARNING|ERROR|DEBUG|FATAL|CRITICAL)\]\s*`, in alternation
order. -/
def levelWords : List (List Char) :=
  ["INFO", "WARN", "WARNING", "ERROR", "DEBUG", "FATAL", "CRITICAL"].map String.data

/-- Case-insensitive anchored match of a fixed word (regex /i flag, ASCII):
returns the remainder on success. -/
def dropCaseWord : List Char → List Char → Option (List Char)
  | cs, [] => some cs
  | [], _ :: _ => none
  | c :: cs, p :: ps =>
    if c.toLower = p.toLower then dropCaseWord cs ps else none

/-- Anchored strip of the leading bracketed level tag (the third cleanup
`replace` of `parsePlainTextLog`); returns the remainder, or the input
unchanged when the pattern does not match. -/
def stripLevelTag (cs : List Char) : List Char :=
  match (cs.dropWhile isJsSpace) with
  | '[' :: r1 =>
    match levelWords.findSome? (fun w => dropCaseWord r1 (w ++ [']'])) with
    | some r2 => r2.dropWhile isJsSpace
    | none => cs
  | _ => cs

/-- Embedding of `parsePlainTextLog` from src/src/App.tsx (total: always
produces an entry). -/
def parsePlainTextLog (env : JsEnv) (line : String) (ctr : Nat) : LogEntry × Nat :=
  let timestamp := extractTimestamp line
  let level := detectLogLevel line
  let message :=
    match timestamp with
    | some ts =>
      let m1 := jsTrim ⟨removeFirstL line.data ts.data⟩
      jsTrim ⟨stripLeadingDate m1.data⟩
    | none => line
  let message := jsTrim ⟨stripLevelTag message.data⟩
  ({ id := generateId env.nowMs ctr
     dt := .str ((timestamp).getD env.nowIso)
     level := level
     pid := none
     hostname := none
     message := if message = "" then line else message
     message_field := none
     data := none
     raw := some line }, ctr + 1)

/-- One iteration of the dispatcher loop of `parseLogFile`: try the
structured-data parser when the trimmed line starts with a brace, then the
bracketed structured-text parser, then the always-succeeding plain-text
parser. -/
def dispatchLine (env : JsEnv) (line : String) (ctr : Nat) : Option LogEntry × Nat :=
  let s1 : Option LogEntry × Nat :=
    if startsWithL (jsTrim line).data ['\x7b'] then parseJsonLog env line ctr
    else (none, ctr)
  match s1 with
  | (some e, c1) => (some e, c1)
  | (none, c1) =>
    match parseStructuredTextLog env line c1 with
    | (some e, c2) => (some e, c2)
    | (none, c2) =>
      let (e3, c3) := parsePlainTextLog env line c2
      (some e3, c3)

/-- The retained lines of `parseLogFile`: split the content on newlines and
keep the lines whose trimmed text is non-empty (JS truthiness of
`line.trim()`). -/
def retainedLines (content : String) : List String :=
  ((splitNl content.data).map (fun cs => (⟨cs⟩ : String))).filter
    (fun l => !(jsTrim l = ""))

/-- The entry-collecting loop of `parseLogFile`, threading the id counter. -/
def parseLines (env : JsEnv) : List String → Nat → List LogEntry × Nat
  | [], c => ([], c)
  | line :: rest, c =>
    let d := dispatchLine env line c
    let r := parseLines env rest d.2
    match d.1 with
    | some e => (e :: r.1, r.2)
    | none => (r.1, r.2)

/-- Insertion-order deduplication, modelling the JS `Set` of observed level
strings. -/
def addLevel (acc : List String) (s : String) : List String :=
  if acc.contains s then acc else acc ++ [s]

/-- The observed-level strings of an entry list, in first-occurrence order. -/
def levelsOf (es : List LogEntry) : List String :=
  es.foldl (fun acc e => addLevel acc (levelName e.level)) []

/-- UTF-16 lexicographic comparison, the default JS `Array.prototype.sort`
comparator (the level names are ASCII). -/
def lexLe : List Char → List Char → Bool
  | [], _ => true
  | _ :: _, [] => false
  | a :: as, b :: bs => if a = b then lexLe as bs else decide (a < b)

/-- Insertion step of the sort applied to the level set. -/
def insertStr (s : String) : List String → List String
  | [] => [s]
  | t :: ts => if lexLe s.data t.data then s :: t :: ts else t :: insertStr s ts

/-- JS `Array.prototype.sort()` on strings (set members, hence duplicate-free). -/
def sortStrs (l : List String) : List String := l.foldr insertStr []

/-- The running min/max fold over entry dates of `parseLogFile`; only dates
that parse to a valid instant participate. -/
def foldDates (env : JsEnv) : List LogEntry → Option Int → Option Int →
    Option Int × Option Int
  | [], mn, mx => (mn, mx)
  | e :: es, mn, mx =>
    match env.dateParse e.dt with
    | none => foldDates env es mn mx
    | some t =>
      let mn1 := match mn with

        | none => some t
        | some m => if t < m then some t else some m
      let mx1 := match mx with
        | none => some t
        | some m => if m < t then some t else some m
      foldDates env es mn1 mx1

/-- The aggregate parse result (src/src/types/log.ts `ParsedLog`); the date
range is the pair of epoch instants of the `start`/`end` `Date` objects. -/
structure ParsedLog where
  entries : List LogEntry
  levels : List String
  dateRange : Option (Int × Int)

/-- Embedding of `parseLogFile` from src/src/App.tsx. -/
def parseLogFile (env : JsEnv) (content : String) (ctr : Nat) : ParsedLog × Nat :=
  let lines := retainedLines content
  let pc := parseLines env lines ctr
  let mm := foldDates env pc.1 none none
  ({ entries := pc.1
     levels := sortStrs (levelsOf pc.1)
     dateRange := match mm.1, mm.2 with
                  | some a, some b => some (a, b)
                  | _, _ => none }, pc.2)

/-- Embedding of `filterLogs` from src/src/App.tsx. -/
def filterLogs (env : JsEnv) (entries : List LogEntry) (search : String)
    (levels : List LogLevel) : List LogEntry :=
  entries.filter fun entry =>
    if 0 < levels.length && !(levels.contains entry.level) then false
    else if !(search = "") then
      let searchLower := jsToLower search
      let matchesMessage := strContains (jsToLower entry.message) searchLower
      let matchesData :=
        match entry.data with
        | some d => strContains (jsToLower (env.stringify d)) searchLower
        | none => false
      if !matchesMessage && !matchesData then false else true
    else true

/-- A timeline bucket (src/src/types/log.ts `TimelineBucket`).  The bucket
start instant lives in ℚ because bucket boundaries are produced by JS real
division; `byLevel` is total over the five levels, modelling the record with
all five keys always present. -/
structure TimelineBucket where
  timestamp : ℚ
  count : Nat
  byLevel : LogLevel → Nat

/-- JS `Map.prototype.get` on an insertion-ordered association list. -/
def assocGet (m : List (Int × TimelineBucket)) (k : Int) : Option TimelineBucket :=
  match m with
  | [] => none
  | p :: ps => if p.1 = k then some p.2 else assocGet ps k

/-- JS `Map.prototype.set`: overwrite the entry in place when the key is
present, otherwise append at the end. -/
def assocSet (m : List (Int × TimelineBucket)) (k : Int) (v : TimelineBucket) :
    List (Int × TimelineBucket) :=
  match m with
  | [] => [(k, v)]
  | p :: ps => if p.1 = k then (k, v) :: ps else p :: assocSet ps k v

/-- The zero-initialized bucket created on first insertion
(`{ timestamp, count: 0, byLevel: { debug: 0, info: 0, warn: 0, error: 0,
fatal: 0 } }`). -/
def emptyBucket (bucketTime : ℚ) : TimelineBucket :=
  { timestamp := bucketTime, count := 0, byLevel := fun _ => 0 }

/-- The in-place bucket mutation `bucket.count++; bucket.byLevel[entry.level]++`. -/
def incBucket (b : TimelineBucket) (lvl : LogLevel) : TimelineBucket :=
  { b with
    count := b.count + 1
    byLevel := fun l => if l = lvl then b.byLevel l + 1 else b.byLevel l }

/-- The bucket index of an entry, `Math.floor((time - minTime) / bucketSize)`,
defined when its `dt` parses to a valid instant. -/
def entryIdx (env : JsEnv) (minTime : Int) (bucketSize : ℚ) (e : LogEntry) :
    Option Int :=
  (env.dateParse e.dt).map (fun t => ⌊((t - minTime : Int) : ℚ) / bucketSize⌋)

/-- The bucket-filling loop of the `Timeline` component
(src/src/components/Timeline.tsx, lines 37-55): entries with an invalid date
are skipped; each other entry ensures its bucket exists and then increments
its counters. -/
def buildBuckets (env : JsEnv) (minTime : Int) (bucketSize : ℚ) :
    List LogEntry → List (Int × TimelineBucket) → List (Int × TimelineBucket)
  | [], m => m
  | e :: rest, m =>
    match env.dateParse e.dt with
    | none => buildBuckets env minTime bucketSize rest m
    | some t =>
      let bucketIndex : Int := ⌊((t - minTime : Int) : ℚ) / bucketSize⌋
      let bucketTime : ℚ := (minTime : ℚ) + (bucketIndex : ℚ) * bucketSize
      let m1 := if (assocGet m bucketIndex).isSome then m
                else assocSet m bucketIndex (emptyBucket bucketTime)
      let m2 := match assocGet m1 bucketIndex with
                | some b => assocSet m1 bucketIndex (incBucket b e.level)
                | none => m1
      buildBuckets env minTime bucketSize rest m2

/-- Sorted insertion on bucket indices, modelling
`Array.from(bucketMap.entries()).sort((a, b) => a[0] - b[0])` (keys are
pairwise distinct, so the comparison sort is fully determined). -/
def insertSorted (p : Int × TimelineBucket) :
    List (Int × TimelineBucket) → List (Int × TimelineBucket)
  | [] => [p]
  | q :: qs => if p.1 ≤ q.1 then p :: q :: qs else q :: insertSorted p qs

/-- Sort the materialized buckets ascending by index. -/
def sortByKey (m : List (Int × TimelineBucket)) : List (Int × TimelineBucket) :=
  m.foldr insertSorted []

/-- The bucket-count heuristic
`Math.min(100, Math.max(20, entries.length / 10))` (JS real division). -/
def numBucketsOf (n : Nat) : ℚ := min 100 (max 20 ((n : ℚ) / 10))

/-- The bucket width `range / numBuckets || 1`: JS `||` replaces a zero
(falsy) quotient by 1, avoiding division by zero downstream. -/
def bucketSizeOf (range : ℚ) (n : Nat) : ℚ :=
  if range / numBucketsOf n = 0 then 1 else range / numBucketsOf n

/-- Embedding of the `buckets` computation of the `Timeline` component
(src/src/components/Timeline.tsx, lines 19-60). -/
def bucketize (env : JsEnv) (entries : List LogEntry) : List TimelineBucket :=
  match entries with
  | [] => []
  | _ :: _ =>
    match entries.filterMap (fun e => env.dateParse e.dt) with
    | [] => []
    | d :: ds =>
      let minTime : Int := ds.foldl min d
      let maxTime : Int := ds.foldl max d
      let range : ℚ := ((maxTime - minTime : Int) : ℚ)
      let bucketSize : ℚ := bucketSizeOf range entries.length
      (sortByKey (buildBuckets env minTime bucketSize entries [])).map (fun p => p.2)

/-- The survival predicate of the Filter Engine as the specification words it:
the level set is empty or contains the entry level, and the search text is
empty or occurs case-insensitively in the message or in the text encoding of
the `data` field when present. -/
def survivesSpec (env : JsEnv) (search : String) (levels : List LogLevel)
    (e : LogEntry) : Bool :=
  (levels.isEmpty || levels.contains e.level) &&
  ((search == "") || strContains (jsToLower e.message) (jsToLower search) ||
    (match e.data with
     | some d => strContains (jsToLower (env.stringify d)) (jsToLower search)
     | none => false))

/-- The plain-text message cleanup as the specification words it, before the
empty fallback: start from the full line; if the Timestamp Extractor found a
timestamp substring, remove its first occurrence and trim, and additionally
strip a leading space-separated date+time pattern; then strip a leading
bracketed level tag (case-insensitive). -/
def cleanedMessage (line : String) : String :=
  match extractTimestamp line with
  | some ts =>
    jsTrim ⟨stripLevelTag (jsTrim
      ⟨stripLeadingDate (jsTrim ⟨removeFirstL line.data ts.data⟩).data⟩).data⟩
  | none => jsTrim ⟨stripLevelTag line.data⟩

/-- The full cleanup: if the cleaned message is empty, fall back to the
original full line. -/
def cleanMessageSpec (line : String) : String :=
  if cleanedMessage line = "" then line else cleanedMessage line

/-- Total entry count held by the bucket map. -/
def cntMap (m : List (Int × TimelineBucket)) : Nat :=
  (m.map (fun p => p.2.count)).sum

/-- A concrete runtime environment for witnesses and counterexamples: no line
decodes as structured data, stringification and `String(...)` are trivial,
and — as in the real runtime — the current-time ISO string is the one string
that parses to a valid instant (epoch 0). -/
def envC : JsEnv :=
  { jsonParse := fun _ => none
    stringify := fun _ => ""
    toStr := fun _ => ""
    dateParse := fun j =>
      match j with
      | .str "2099-01-01T00:00:00.000Z" => some 0
      | _ => none
    nowIso := "2099-01-01T00:00:00.000Z"
    nowMs := 7 }

/-- An entry whose `dt` does not parse to any instant under `envC`. -/
def entryNoDate : LogEntry :=
  { id := "w", dt := .str "zzz", level := .info, pid := none, hostname := none
    message := "m", message_field := none, data := none, raw := none }

/-- One step of the running-minimum fold of `parseLogFile`
(`if (!minDate || entryDate < minDate) minDate = entryDate`). -/
def optMinStep : Option Int → Int → Option Int
  | none, t => some t
  | some m, t => if t < m then some t else some m

/-- One step of the running-maximum fold of `parseLogFile`. -/
def optMaxStep : Option Int → Int → Option Int
  | none, t => some t
  | some m, t => if m < t then some t else some m

/-- The date range computed only from the entries whose `dt` parses to a
valid instant: none when there is no such entry, else the min and max of
their instants. -/
def dateRangeOf (env : JsEnv) (es : List LogEntry) : Option (Int × Int) :=
  match es.filterMap (fun e => env.dateParse e.dt) with
  | [] => none
  | d :: ds => some (ds.foldl min d, ds.foldl max d)

/-- Erase the only impure component of an entry: its generated id. -/
def eraseId (e : LogEntry) : LogEntry :=
  { e with id := "" }

/-- An entry whose `dt` is the one string `envC` parses to instant 0. -/
def entryAtZero : LogEntry :=
  { id := "z", dt := .str "2099-01-01T00:00:00.000Z", level := .error, pid := none
    hostname := none, message := "m", message_field := none, data := none
    raw := none }

/-- Number of already-processed entries assigned to bucket index `k`. -/
def keyCount (env : JsEnv) (mn : Int) (bs : ℚ) (seen : List LogEntry) (k : Int) : Nat :=
  (seen.filter (fun e => decide (entryIdx env mn bs e = some k))).length

/-- Number of already-processed entries assigned to bucket index `k` that
carry level `l`. -/
def keyLvlCount (env : JsEnv) (mn : Int) (bs : ℚ) (seen : List LogEntry) (k : Int)
    (l : LogLevel) : Nat :=
  (seen.filter (fun e => decide (entryIdx env mn bs e = some k ∧ e.level = l))).length

/-- Invariant of the bucket-filling loop: bucket keys are pairwise distinct,
every bucket's start instant identifies its index (`minTime + index * width`),
every bucket's counters agree with the processed prefix of the entry list,
and absent keys have no processed entries. -/
def bucketMapInv (env : JsEnv) (mn : Int) (bs : ℚ) (seen : List LogEntry)
    (m : List (Int × TimelineBucket)) : Prop :=
  (m.map Prod.fst).Nodup ∧
  (∀ p ∈ m, p.2.timestamp = (mn : ℚ) + (p.1 : ℚ) * bs ∧
    p.2.count = keyCount env mn bs seen p.1 ∧
    ∀ l : LogLevel, p.2.byLevel l = keyLvlCount env mn bs seen p.1 l) ∧
  (∀ k : Int, k ∉ m.map Prod.fst → keyCount env mn bs seen k = 0)

/-- The bucket that the claim demands at index `k`: start instant
`minTime + k * width`, count = number of input entries assigned to index `k`,
and a per-level record, total over the five levels, counting per level
exactly the entries assigned to index `k`. -/
def bucketSpecAt (env : JsEnv) (mn : Int) (bs : ℚ) (es : List LogEntry)
    (k : Int) : TimelineBucket :=
  { timestamp := (mn : ℚ) + (k : ℚ) * bs
    count := (es.filter (fun e => decide (entryIdx env mn bs e = some k))).length
    byLevel := fun l =>
      (es.filter (fun e =>
        decide (entryIdx env mn bs e = some k ∧ e.level = l))).length }

lemma startsWithL_refl : ∀ xs : List Char, startsWithL xs xs = true := by
  intro xs
  induction xs with
  | nil => rfl
  | cons c cs ih => simp [startsWithL, ih]

lemma startsWithL_of_append :
    ∀ (p : List Char) (xs q : List Char),
      startsWithL xs (p ++ q) = true → startsWithL xs p = true := by
  intro p
  induction p with
  | nil => intro xs q _; cases xs <;> rfl
  | cons a as ih =>
    intro xs q h
    cases xs with
    | nil => simp [startsWithL] at h
    | cons c cs =>
      simp only [List.cons_append, startsWithL, Bool.and_eq_true] at h ⊢
      exact ⟨h.1, ih cs q h.2⟩

lemma containsL_of_append :
    ∀ (hay p q : List Char),
      containsL hay (p ++ q) = true → containsL hay p = true := by
  intro hay
  induction hay with
  | nil =>
    intro p q h
    simp only [containsL, List.isEmpty_iff, List.append_eq_nil] at h ⊢
    exact h.1
  | cons c cs ih =>
    intro p q h
    simp only [containsL, Bool.or_eq_true] at h ⊢
    rcases h with h | h
    · exact Or.inl (startsWithL_of_append p _ q h)
    · exact Or.inr (ih p q h)

lemma containsL_self (xs : List Char) : containsL xs xs = true := by
  cases xs with
  | nil => rfl
  | cons c cs => simp [containsL, startsWithL_refl]

lemma strContains_warn_of_warning (l : String) :
    strContains l "warning" = true → strContains l "warn" = true := by
  intro h
  have e : ("warning".data : List Char) = "warn".data ++ "ing".data := by decide
  unfold strContains at h ⊢
  rw [e] at h
  exact containsL_of_append _ _ _ h

lemma strContains_of_eq_error (l : String) (h : l = "error") :
    strContains l "error" = true := by
  subst h
  exact containsL_self _

lemma beq_error_false_of_not_contains (l : String)
    (h : strContains l "error" = false) : (l == "error") = false := by
  cases hb : l == "error" with
  | false => rfl
  | true =>
    exact absurd (strContains_of_eq_error l (eq_of_beq hb)) (by simp [h])

/-- C2, counterexample: the claim asserts that any text containing both
"warn" and "error" classifies as error, but a text that also contains
"fatal" classifies as fatal (the fatal/critical tier is checked first). -/
theorem c2_counterexample :
    strContains (jsToLower "warn error fatal") "warn" = true ∧
    strContains (jsToLower "warn error fatal") "error" = true ∧
    detectLogLevel "warn error fatal" = LogLevel.fatal ∧
    ¬ detectLogLevel "warn error fatal" = LogLevel.error := by
  refine ⟨by decide, by decide, by decide, by decide⟩

/-- C2 (amended): classification is case-insensitive (it depends only on the
lowercased text) and follows the fixed priority fatal/critical, then
error/"err]", then warn, then debug/dbg, then info as default;
"ERROR", "error" and "[err]" all classify as error; and a text containing
both "warn" and "error" — and neither "fatal" nor "critical" — classifies
as error. -/
theorem c2_level_classification_amended :
    (∀ s t : String, jsToLower s = jsToLower t →
      detectLogLevel s = detectLogLevel t) ∧
    (detectLogLevel "ERROR" = LogLevel.error ∧
      detectLogLevel "error" = LogLevel.error ∧
      detectLogLevel "[err]" = LogLevel.error) ∧
    (∀ s : String,
      ((strContains (jsToLower s) "fatal" || strContains (jsToLower s) "critical") = true →
        detectLogLevel s = LogLevel.fatal) ∧
      (strContains (jsToLower s) "fatal" = false →
        strContains (jsToLower s) "critical" = false →
        (strContains (jsToLower s) "error" || strContains (jsToLower s) "err]") = true →
        detectLogLevel s = LogLevel.error) ∧
      (strContains (jsToLower s) "fatal" = false →
        strContains (jsToLower s) "critical" = false →
        strContains (jsToLower s) "error" = false →
        strContains (jsToLower s) "err]" = false →
        strContains (jsToLower s) "warn" = true →
        detectLogLevel s = LogLevel.warn) ∧
      (strContains (jsToLower s) "fatal" = false →
        strContains (jsToLower s) "critical" = false →
        strContains (jsToLower s) "error" = false →
        strContains (jsToLower s) "err]" = false →
        strContains (jsToLower s) "warn" = false →
        (strContains (jsToLower s) "debug" || strContains (jsToLower s) "dbg") = true →
        detectLogLevel s = LogLevel.debug) ∧
      (strContains (jsToLower s) "fatal" = false →
        strContains (jsToLower s) "critical" = false →
        strContains (jsToLower s) "error" = false →
        strContains (jsToLower s) "err]" = false →
        strContains (jsToLower s) "warn" = false →
        strContains (jsToLower s) "debug" = false →
        strContains (jsToLower s) "dbg" = false →
        detectLogLevel s = LogLevel.info)) ∧
    (∀ s : String, strContains (jsToLower s) "warn" = true →
      strContains (jsToLower s) "error" = true →
      strContains (jsToLower s) "fatal" = false →
      strContains (jsToLower s) "critical" = false →
      detectLogLevel s = LogLevel.error) := by
  have tier2 : ∀ s : String, strContains (jsToLower s) "fatal" = false →
      strContains (jsToLower s) "critical" = false →
      (strContains (jsToLower s) "error" || strContains (jsToLower s) "err]") = true →
      detectLogLevel s = LogLevel.error := by
    intro s h1 h2 h3
    simp only [detectLogLevel]
    simp [h1, h2, h3]
  refine ⟨?_, ⟨by decide, by decide, by decide⟩, ?_, ?_⟩
  · intro s t h
    simp only [detectLogLevel]
    rw [h]
  · intro s
    refine ⟨?_, tier2 s, ?_, ?_, ?_⟩
    · intro h
      simp only [detectLogLevel]
      simp [h]
    · intro h1 h2 h3 h4 h5
      have h7 := beq_error_false_of_not_contains _ h3
      simp only [detectLogLevel]
      simp [h1, h2, h3, h4, h5, h7]
    · intro h1 h2 h3 h4 h5 h6
      have h7 : strContains (jsToLower s) "warning" = false := by
        cases hb : strContains (jsToLower s) "warning" with
        | false => rfl
        | true => exact absurd (strContains_warn_of_warning _ hb) (by simp [h5])
      have h8 := beq_error_false_of_not_contains _ h3
      simp only [detectLogLevel]
      simp [h1, h2, h3, h4, h5, h6, h7, h8]
    · intro h1 h2 h3 h4 h5 h6 h7
      have h8 : strContains (jsToLower s) "warning" = false := by
        cases hb : strContains (jsToLower s) "warning" with
        | false => rfl
        | true => exact absurd (strContains_warn_of_warning _ hb) (by simp [h5])
      have h9 := beq_error_false_of_not_contains _ h3
      simp only [detectLogLevel]
      simp [h1, h2, h3, h4, h5, h6, h7, h8, h9]
  · intro s hw he hf hc
    exact tier2 s hf hc (by simp [he])

/-- C2, witness: the amended priority statement applied at a concrete text
containing both "warn" and "error" (and neither "fatal" nor "critical"). -/
theorem c2_level_classification_witness :
    detectLogLevel "warn and error here" = LogLevel.error :=
  c2_level_classification_amended.2.2.2 "warn and error here"
    (by decide) (by decide) (by decide) (by decide)

lemma natDigits_lt (n : Nat) (h : n < 10) : natDigits n = [digitCh n] := by
  rw [natDigits, dif_pos h]

lemma natDigits_ge (n : Nat) (h : ¬ n < 10) :
    natDigits n = natDigits (n / 10) ++ [digitCh (n % 10)] := by
  rw [natDigits, dif_neg h]

lemma natDecCore_eq_natDigits :
    ∀ (fuel n : Nat) (acc : List Char), n < fuel →
      natDecCore fuel n acc = natDigits n ++ acc := by
  intro fuel
  induction fuel with
  | zero => intro n acc h; omega
  | succ f ih =>
    intro n acc h
    simp only [natDecCore]
    by_cases h0 : n / 10 = 0
    · have hn : n < 10 := by omega
      rw [if_pos h0, natDigits_lt n hn, Nat.mod_eq_of_lt hn]
      rfl
    · have hdlt : n / 10 < n := Nat.div_lt_self (by omega) (by omega)
      have hlt : n / 10 < f := by omega
      rw [if_neg h0, ih (n / 10) _ hlt, natDigits_ge n (by omega)]
      simp

lemma natDecStr_eq (n : Nat) : natDecStr n = ⟨natDigits n⟩ := by
  unfold natDecStr
  rw [natDecCore_eq_natDigits (n + 1) n [] (by omega), List.append_nil]

lemma natDigits_ne_nil (n : Nat) : natDigits n ≠ [] := by
  by_cases h : n < 10
  · rw [natDigits_lt n h]; simp
  · rw [natDigits_ge n h]; simp

lemma digitCh_inj : ∀ m < 10, ∀ n < 10, digitCh m = digitCh n → m = n := by
  decide

lemma natDigits_inj : ∀ m n : Nat, natDigits m = natDigits n → m = n := by
  intro m
  induction m using Nat.strong_induction_on with
  | _ m ih =>
    intro n h
    by_cases hm : m < 10 <;> by_cases hn : n < 10
    · rw [natDigits_lt m hm, natDigits_lt n hn] at h
      exact digitCh_inj m hm n hn (List.cons.injEq .. ▸ h).1
    · rw [natDigits_lt m hm, natDigits_ge n hn] at h
      have hlen := congrArg List.length h
      have hne := natDigits_ne_nil (n / 10)
      cases hd : natDigits (n / 10) with
      | nil => exact absurd hd hne
      | cons a as => rw [hd] at hlen; simp at hlen
    · rw [natDigits_ge m hm, natDigits_lt n hn] at h
      have hlen := congrArg List.length h
      have hne := natDigits_ne_nil (m / 10)
      cases hd : natDigits (m / 10) with
      | nil => exact absurd hd hne
      | cons a as => rw [hd] at hlen; simp at hlen
    · rw [natDigits_ge m hm, natDigits_ge n hn] at h
      have hp := List.append_inj' h (by simp)
      have h1 : m / 10 = n / 10 :=
        ih (m / 10) (Nat.div_lt_self (by omega) (by omega)) (n / 10) hp.1
      have h2 : m % 10 = n % 10 :=
        digitCh_inj (m % 10) (Nat.mod_lt _ (by omega)) (n % 10)
          (Nat.mod_lt _ (by omega)) (List.cons.injEq .. ▸ hp.2).1
      omega

lemma natDecStr_data_inj (m n : Nat) :
    (natDecStr m).data = (natDecStr n).data → m = n := by
  intro h
  rw [natDecStr_eq, natDecStr_eq] at h
  exact natDigits_inj m n h

lemma generateId_inj (nowMs : Nat) (c1 c2 : Nat)
    (h : generateId nowMs c1 = generateId nowMs c2) : c1 = c2 := by
  have hd := congrArg String.data h
  simp only [generateId, String.data_append, List.append_assoc] at hd
  exact natDecStr_data_inj c1 c2
    (List.append_cancel_left (List.append_cancel_left (List.append_cancel_left hd)))

lemma parseJsonLog_spec (env : JsEnv) (line : String) (c : Nat) :
    parseJsonLog env line c = (none, c) ∨
    ∃ e : LogEntry, parseJsonLog env line c = (some e, c + 1) ∧
      e.raw = some line ∧ e.id = generateId env.nowMs c := by
  unfold parseJsonLog
  cases env.jsonParse line with
  | none => exact Or.inl rfl
  | some parsed => exact Or.inr ⟨_, rfl, rfl, rfl⟩

lemma parseStructuredTextLog_spec (env : JsEnv) (line : String) (c : Nat) :
    parseStructuredTextLog env line c = (none, c) ∨
    ∃ e : LogEntry, parseStructuredTextLog env line c = (some e, c + 1) ∧
      e.raw = some line ∧ e.id = generateId env.nowMs c := by
  unfold parseStructuredTextLog
  cases matchStructured line.data with
  | none => exact Or.inl rfl
  | some t =>
    obtain ⟨a, b, r⟩ := t
    exact Or.inr ⟨_, rfl, rfl, rfl⟩

lemma parsePlainTextLog_spec (env : JsEnv) (line : String) (c : Nat) :
    ∃ e : LogEntry, parsePlainTextLog env line c = (e, c + 1) ∧
      e.raw = some line ∧ e.id = generateId env.nowMs c :=
  ⟨_, rfl, rfl, rfl⟩

lemma dispatchLine_spec (env : JsEnv) (line : String) (c : Nat) :
    ∃ e : LogEntry, dispatchLine env line c = (some e, c + 1) ∧
      e.raw = some line ∧ e.id = generateId env.nowMs c := by
  unfold dispatchLine
  by_cases hb : startsWithL (jsTrim line).data ['\x7b']
  · rw [if_pos hb]
    rcases parseJsonLog_spec env line c with hj | ⟨e, hj, hraw, hid⟩
    · simp only [hj]
      rcases parseStructuredTextLog_spec env line c with hs | ⟨e, hs, hraw, hid⟩
      · obtain ⟨e, hp, hraw, hid⟩ := parsePlainTextLog_spec env line c
        simp only [hs, hp]
        exact ⟨e, rfl, hraw, hid⟩
      · simp only [hs]
        exact ⟨e, rfl, hraw, hid⟩
    · simp only [hj]
      exact ⟨e, rfl, hraw, hid⟩
  · rw [if_neg hb]
    rcases parseStructuredTextLog_spec env line c with hs | ⟨e, hs, hraw, hid⟩
    · obtain ⟨e, hp, hraw, hid⟩ := parsePlainTextLog_spec env line c
      simp only [hs, hp]
      exact ⟨e, rfl, hraw, hid⟩
    · simp only [hs]
      exact ⟨e, rfl, hraw, hid⟩

lemma parseLines_spec (env : JsEnv) :
    ∀ (ls : List String) (c : Nat),
      (parseLines env ls c).2 = c + ls.length ∧
      (parseLines env ls c).1.length = ls.length ∧
      (parseLines env ls c).1.map LogEntry.raw = ls.map some ∧
      (parseLines env ls c).1.map LogEntry.id =
        (List.range ls.length).map (fun i => generateId env.nowMs (c + i)) := by
  intro ls
  induction ls with
  | nil => intro c; refine ⟨rfl, rfl, rfl, rfl⟩
  | cons line rest ih =>
    intro c
    obtain ⟨e, hd, hraw, hid⟩ := dispatchLine_spec env line c
    obtain ⟨ih1, ih2, ih3, ih4⟩ := ih (c + 1)
    simp only [parseLines, hd]
    refine ⟨?_, ?_, ?_, ?_⟩
    · rw [ih1, List.length_cons]
      omega
    · rw [List.length_cons, List.length_cons, ih2]
    · rw [List.map_cons, List.map_cons, hraw, ih3]
    · rw [List.map_cons, hid, ih4, List.length_cons, List.range_succ_eq_map,
        List.map_cons, List.map_map, Nat.add_zero]
      congr 1
      apply List.map_congr_left
      intro a _
      simp only [Function.comp_apply]
      congr 1
      omega

/-- C1: `parseLogFile` produces exactly one entry per retained line (a line
whose trimmed text is non-empty), in original line order (witnessed by the
`raw` fields, which record each entry's source line), and the dispatcher
never fails: every tier either declines (returns none) or succeeds, and the
plain-text fallback always succeeds, so no error is visible to the caller. -/
theorem c1_total_line_coverage :
    ∀ (env : JsEnv) (content : String) (ctr : Nat),
      (parseLogFile env content ctr).1.entries.length =
        (retainedLines content).length ∧
      (parseLogFile env content ctr).1.entries.map LogEntry.raw =
        (retainedLines content).map some ∧
      ∀ (line : String) (c : Nat), ((dispatchLine env line c).1).isSome = true := by
  intro env content ctr
  obtain ⟨h1, h2, h3, h4⟩ := parseLines_spec env (retainedLines content) ctr
  refine ⟨h2, h3, ?_⟩
  intro line c
  obtain ⟨e, hd, _, _⟩ := dispatchLine_spec env line c
  rw [hd]
  rfl

/-- C7: the entry ids produced by one `parseLogFile` run are pairwise
distinct and are generated from strictly increasing counter values in input
order (entry number `i` carries counter `ctr + i`); the returned counter is
the input counter plus the number of entries, so counter values are never
reused by later parses in the same process. -/
theorem c7_ids_distinct_increasing :
    ∀ (env : JsEnv) (content : String) (ctr : Nat),
      ((parseLogFile env content ctr).1.entries.map LogEntry.id).Nodup ∧
      (parseLogFile env content ctr).1.entries.map LogEntry.id =
        (List.range (parseLogFile env content ctr).1.entries.length).map
          (fun i => generateId env.nowMs (ctr + i)) ∧
      (parseLogFile env content ctr).2 =
        ctr + (parseLogFile env content ctr).1.entries.length := by
  intro env content ctr
  obtain ⟨h1, h2, h3, h4⟩ := parseLines_spec env (retainedLines content) ctr
  have hinj : Function.Injective (fun i : Nat => generateId env.nowMs (ctr + i)) := by
    intro a b hab
    have := generateId_inj env.nowMs (ctr + a) (ctr + b) hab
    omega
  refine ⟨?_, ?_, ?_⟩
  · show ((parseLines env (retainedLines content) ctr).1.map LogEntry.id).Nodup
    rw [h4]
    exact List.Nodup.map hinj (List.nodup_range _)
  · show (parseLines env (retainedLines content) ctr).1.map LogEntry.id =
      (List.range (parseLines env (retainedLines content) ctr).1.length).map
        (fun i => generateId env.nowMs (ctr + i))
    rw [h4, h2]
  · show (parseLines env (retainedLines content) ctr).2 =
      ctr + (parseLines env (retainedLines content) ctr).1.length
    rw [h1, h2]

/-- C3: `filterLogs` returns exactly the subsequence of entries satisfying
the specification predicate (level membership when the level list is
non-empty, case-insensitive substring search over message or encoded data),
preserving relative order (it is a sublist of the input, which the purely
functional embedding leaves unchanged), and the empty filter state is the
identity. -/
theorem c3_filter_engine :
    ∀ (env : JsEnv) (es : List LogEntry) (s : String) (ls : List LogLevel),
      filterLogs env es s ls = es.filter (survivesSpec env s ls) ∧
      (filterLogs env es s ls).Sublist es ∧
      filterLogs env es "" [] = es := by
  intro env es s ls
  have hmain : ∀ (s : String) (ls : List LogLevel),
      filterLogs env es s ls = es.filter (survivesSpec env s ls) := by
    intro s ls
    unfold filterLogs
    apply List.filter_congr
    intro e _
    by_cases hs : s = ""
    · subst hs
      cases hls : ls <;> cases hd : e.data <;> simp [survivesSpec, hd]
    · have hb : (s == "") = false := by simp [hs]
      cases hls : ls <;> cases hd : e.data <;> simp [survivesSpec, hd, hs, hb]
  refine ⟨hmain s ls, ?_, ?_⟩
  · rw [hmain s ls]
    exact List.filter_sublist es
  · rw [hmain "" []]
    apply List.filter_eq_self.mpr
    intro e _
    simp [survivesSpec]

/-- C6: a plain-text entry's message is exactly the specification's cleanup
of the line (timestamp removal, date-pattern strip, bracketed level tag
strip, full-line fallback), it is never empty for a non-empty line, and on
concrete lines the recognized leading timestamp/level markers are stripped
while a line that would clean to nothing falls back to the original line. -/
theorem c6_plain_text_message :
    ∀ (env : JsEnv) (line : String) (ctr : Nat),
      ((parsePlainTextLog env line ctr).1).message = cleanMessageSpec line ∧
      (¬ line = "" → ¬ ((parsePlainTextLog env line ctr).1).message = "") ∧
      ((parsePlainTextLog env "2024-01-02T03:04:05Z [ERROR] boom" ctr).1).message =
        "boom" ∧
      ((parsePlainTextLog env "[INFO]" ctr).1).message = "[INFO]" := by
  intro env line ctr
  have hmain : ∀ l : String, ((parsePlainTextLog env l ctr).1).message =
      cleanMessageSpec l := by
    intro l
    simp only [parsePlainTextLog, cleanMessageSpec, cleanedMessage]
    cases h : extractTimestamp l <;> simp [h]
  refine ⟨hmain line, ?_, ?_, ?_⟩
  · intro hne
    rw [hmain line]
    unfold cleanMessageSpec
    by_cases hc : cleanedMessage line = "" <;> simp [hc, hne]
  · rw [hmain _]
    rfl
  · rw [hmain _]
    rfl

lemma assocGet_assocSet_self (m : List (Int × TimelineBucket)) (k : Int)
    (v : TimelineBucket) : assocGet (assocSet m k v) k = some v := by
  induction m with
  | nil => simp [assocSet, assocGet]
  | cons p ps ih =>
    by_cases h : p.1 = k
    · simp [assocSet, assocGet, h]
    · simp [assocSet, assocGet, h, ih]

lemma assocSet_of_get_none (m : List (Int × TimelineBucket)) (k : Int)
    (v : TimelineBucket) (h : assocGet m k = none) :
    assocSet m k v = m ++ [(k, v)] := by
  induction m with
  | nil => rfl
  | cons p ps ih =>
    by_cases hp : p.1 = k
    · simp [assocGet, hp] at h
    · simp only [assocGet, hp, if_neg] at h
      simp [assocSet, hp, ih h]

lemma cntMap_assocSet_of_get (m : List (Int × TimelineBucket)) (k : Int)
    (v b : TimelineBucket) (h : assocGet m k = some b) :
    cntMap (assocSet m k v) + b.count = cntMap m + v.count := by
  induction m with
  | nil => simp [assocGet] at h
  | cons p ps ih =>
    by_cases hp : p.1 = k
    · have hb : b = p.2 := by
        simp [assocGet, hp] at h
        exact h.symm
      subst hb
      simp [assocSet, hp, cntMap]
      omega
    · have hh : assocGet ps k = some b := by
        simpa [assocGet, hp] using h
      have hih := ih hh
      have hgoal : assocSet (p :: ps) k v = p :: assocSet ps k v := by
        simp [assocSet, hp]
      rw [hgoal]
      simp only [cntMap, List.map_cons, List.sum_cons] at hih ⊢
      omega

lemma buildBuckets_cnt (env : JsEnv) (mn : Int) (bs : ℚ) :
    ∀ (es : List LogEntry) (m : List (Int × TimelineBucket)),
      cntMap (buildBuckets env mn bs es m) =
        cntMap m + (es.filter (fun e => (env.dateParse e.dt).isSome)).length := by
  intro es
  induction es with
  | nil => intro m; simp [buildBuckets]
  | cons e rest ih =>
    intro m
    cases h : env.dateParse e.dt with
    | none => simp [buildBuckets, h, ih, List.filter_cons]
    | some t =>
      simp only [buildBuckets, h]
      have hfil : (List.filter (fun e => (env.dateParse e.dt).isSome) (e :: rest)).length
          = (List.filter (fun e => (env.dateParse e.dt).isSome) rest).length + 1 := by
        simp [List.filter_cons, h]
      rw [hfil]
      set idx : Int := ⌊((t - mn : Int) : ℚ) / bs⌋ with hidx
      set bt : ℚ := (mn : ℚ) + (idx : ℚ) * bs with hbt
      cases hg : assocGet m idx with
      | some b =>
        simp only [hg, Option.isSome_some, if_true]
        rw [ih]
        have hc := cntMap_assocSet_of_get m idx (incBucket b e.level) b hg
        have hcount : (incBucket b e.level).count = b.count + 1 := rfl
        omega
      | none =>
        simp only [hg, Option.isSome_none, Bool.false_eq_true, if_false,
          assocGet_assocSet_self]
        rw [ih]
        have hset := assocSet_of_get_none m idx (emptyBucket bt) hg
        have h2 := cntMap_assocSet_of_get (assocSet m idx (emptyBucket bt)) idx
          (incBucket (emptyBucket bt) e.level) (emptyBucket bt)
          (assocGet_assocSet_self m idx (emptyBucket bt))
        have h3 : cntMap (assocSet m idx (emptyBucket bt)) = cntMap m := by
          rw [hset]
          simp [cntMap, emptyBucket]
        have e1 : (emptyBucket bt).count = 0 := rfl
        have e2 : (incBucket (emptyBucket bt) e.level).count = 1 := rfl
        omega

lemma insertSorted_perm (p : Int × TimelineBucket) :
    ∀ l : List (Int × TimelineBucket), (insertSorted p l).Perm (p :: l) := by
  intro l
  induction l with
  | nil => exact List.Perm.refl _
  | cons q qs ih =>
    by_cases h : p.1 ≤ q.1
    · simp [insertSorted, h]
    · simp only [insertSorted, h, if_false]
      exact ((ih.cons q).trans (List.Perm.swap p q qs))

lemma sortByKey_perm (m : List (Int × TimelineBucket)) : (sortByKey m).Perm m := by
  induction m with
  | nil => exact List.Perm.refl _
  | cons p ps ih =>
    have h0 : sortByKey (p :: ps) = insertSorted p (sortByKey ps) := rfl
    rw [h0]
    exact (insertSorted_perm p (sortByKey ps)).trans (ih.cons p)

lemma length_filterMap_valid (env : JsEnv) (es : List LogEntry) :
    (es.filterMap (fun e => env.dateParse e.dt)).length =
      (es.filter (fun e => (env.dateParse e.dt).isSome)).length := by
  induction es with
  | nil => rfl
  | cons e rest ih =>
    cases h : env.dateParse e.dt <;>
      simp [List.filterMap_cons, List.filter_cons, h, ih]

/-- The total bucket count equals the number of entries whose `dt` parses to
a valid instant. -/
lemma bucketize_sum (env : JsEnv) (es : List LogEntry) :
    ((bucketize env es).map TimelineBucket.count).sum =
      (es.filter (fun e => (env.dateParse e.dt).isSome)).length := by
  cases hes : es with
  | nil => rfl
  | cons e rest =>
    simp only [bucketize]
    cases hfm : (e :: rest).filterMap (fun e => env.dateParse e.dt) with
    | nil =>
      have hv := length_filterMap_valid env (e :: rest)
      rw [hfm] at hv
      simp only [List.length_nil] at hv
      simp only [List.map_nil, List.sum_nil]
      omega
    | cons d ds =>
      have hperm := (sortByKey_perm (buildBuckets env (ds.foldl min d)
        (bucketSizeOf (((ds.foldl max d) - (ds.foldl min d) : Int) : ℚ)
          (e :: rest).length) (e :: rest) [])).map (fun p => p.2.count)
      have hsum := hperm.sum_eq
      have hcnt := buildBuckets_cnt env (ds.foldl min d)
        (bucketSizeOf (((ds.foldl max d) - (ds.foldl min d) : Int) : ℚ)
          (e :: rest).length) (e :: rest) []
      simp only [cntMap, List.map_nil, List.sum_nil, Nat.zero_add] at hcnt
      simp only [List.map_map]
      calc ((sortByKey _).map (TimelineBucket.count ∘ (fun p => p.2))).sum
          = ((buildBuckets env _ _ (e :: rest) []).map (fun p => p.2.count)).sum := by
            rw [← hsum]
            rfl
        _ = _ := hcnt

/-- C6, witness: a concrete non-empty line has a non-empty message. -/
theorem c6_plain_text_message_witness :
    ¬ ((parsePlainTextLog envC "x" 0).1).message = "" :=
  (c6_plain_text_message envC "x" 0).2.1 (by decide)

/-- C4: the total count over all produced buckets equals the number of
entries whose `dt` parses to a valid instant (entries with unparseable `dt`
are assigned to no bucket), and when no entry has a valid instant — in
particular on the empty list — no buckets are produced. -/
theorem c4_bucket_count_conservation :
    ∀ (env : JsEnv) (es : List LogEntry),
      ((bucketize env es).map TimelineBucket.count).sum =
        (es.filter (fun e => (env.dateParse e.dt).isSome)).length ∧
      ((∀ e ∈ es, env.dateParse e.dt = none) → bucketize env es = []) ∧
      bucketize env ([] : List LogEntry) = [] := by
  intro env es
  refine ⟨bucketize_sum env es, ?_, rfl⟩
  intro hall
  cases es with
  | nil => rfl
  | cons e rest =>
    simp only [bucketize]
    have hfm : (e :: rest).filterMap (fun e => env.dateParse e.dt) = [] := by
      rw [List.filterMap_eq_nil_iff]
      intro a ha
      exact hall a ha
    rw [hfm]

/-- C4, witness: on a concrete list whose only entry has an unparseable
timestamp, no buckets are produced. -/
theorem c4_bucket_count_witness :
    bucketize envC [entryNoDate] = [] :=
  (c4_bucket_count_conservation envC [entryNoDate]).2.1 (by decide)

lemma foldDates_eq (env : JsEnv) :
    ∀ (es : List LogEntry) (mn mx : Option Int),
      foldDates env es mn mx =
        ((es.filterMap (fun e => env.dateParse e.dt)).foldl optMinStep mn,
         (es.filterMap (fun e => env.dateParse e.dt)).foldl optMaxStep mx) := by
  intro es
  induction es with
  | nil => intro mn mx; rfl
  | cons e rest ih =>
    intro mn mx
    cases h : env.dateParse e.dt with
    | none => simp only [foldDates, h, List.filterMap_cons, ih]
    | some t =>
      simp only [foldDates, h, List.filterMap_cons, ih, List.foldl_cons]
      cases mn <;> cases mx <;> rfl

lemma foldl_optMinStep_some :
    ∀ (ds : List Int) (a : Int), ds.foldl optMinStep (some a) = some (ds.foldl min a) := by
  intro ds
  induction ds with
  | nil => intro a; rfl
  | cons t ts ih =>
    intro a
    have hstep : optMinStep (some a) t = some (min a t) := by
      by_cases h : t < a <;> simp [optMinStep, h, min_def] <;> omega
    simp only [List.foldl_cons, hstep, ih]

lemma foldl_optMaxStep_some :
    ∀ (ds : List Int) (a : Int), ds.foldl optMaxStep (some a) = some (ds.foldl max a) := by
  intro ds
  induction ds with
  | nil => intro a; rfl
  | cons t ts ih =>
    intro a
    have hstep : optMaxStep (some a) t = some (max a t) := by
      by_cases h : a < t <;> simp [optMaxStep, h, max_def] <;> omega
    simp only [List.foldl_cons, hstep, ih]

lemma parseLogFile_dateRange_eq (env : JsEnv) (content : String) (ctr : Nat) :
    (parseLogFile env content ctr).1.dateRange =
      dateRangeOf env (parseLogFile env content ctr).1.entries := by
  show (match (foldDates env (parseLines env (retainedLines content) ctr).1
      none none).1, (foldDates env (parseLines env (retainedLines content) ctr).1
      none none).2 with
    | some a, some b => some (a, b)
    | _, _ => none) =
    dateRangeOf env (parseLines env (retainedLines content) ctr).1
  rw [foldDates_eq]
  unfold dateRangeOf
  cases hfm : (parseLines env (retainedLines content) ctr).1.filterMap
      (fun e => env.dateParse e.dt) with
  | nil => rfl
  | cons d ds =>
    simp only [List.foldl_cons]
    have h1 : optMinStep none d = some d := rfl
    have h2 : optMaxStep none d = some d := rfl
    rw [h1, h2, foldl_optMinStep_some, foldl_optMaxStep_some]

/-- C5, counterexample: a line with no recognizable timestamp still produces
an entry whose `dt` defaults to the current-time ISO string; that default
parses to a valid instant (as in the real runtime), so the entry is NOT
excluded from the dateRange computation — parsing the single line "hello"
yields a non-null dateRange, where the claim demands null. -/
theorem c5_counterexample :
    extractTimestamp "hello" = none ∧
    (parseLogFile envC "hello" 0).1.dateRange = some (0, 0) ∧
    ¬ (parseLogFile envC "hello" 0).1.dateRange = none := by
  refine ⟨by decide, by decide, by decide⟩

/-- C5 (amended): a timestamp-unresolvable line still yields an entry whose
`dt` is the current-time default; the dateRange is computed exactly from the
entries whose `dt` parses to a valid instant (all others are excluded), and
bucket totals count exactly the entries with a valid instant — but the
current-time default itself parses as valid, so timestamp-unresolvable
entries participate in both computations through their default timestamp. -/
theorem c5_timestamp_default_amended :
    (∀ (env : JsEnv) (line : String) (ctr : Nat), extractTimestamp line = none →
      ((parsePlainTextLog env line ctr).1).dt = Json.str env.nowIso) ∧
    (∀ (env : JsEnv) (content : String) (ctr : Nat),
      (parseLogFile env content ctr).1.dateRange =
        dateRangeOf env (parseLogFile env content ctr).1.entries) ∧
    (∀ (env : JsEnv) (es : List LogEntry),
      ((bucketize env es).map TimelineBucket.count).sum =
        (es.filter (fun e => (env.dateParse e.dt).isSome)).length) := by
  refine ⟨?_, ?_, fun env es => bucketize_sum env es⟩
  · intro env line ctr h
    simp only [parsePlainTextLog, h]
    rfl
  · intro env content ctr
    exact parseLogFile_dateRange_eq env content ctr

/-- C5, witness: the amended default-timestamp statement applied at the
concrete timestamp-free line "hello". -/
theorem c5_timestamp_default_witness :
    ((parsePlainTextLog envC "hello" 0).1).dt = Json.str envC.nowIso :=
  c5_timestamp_default_amended.1 envC "hello" 0 (by decide)

lemma dispatchLine_eraseId (env : JsEnv) (line : String) (c c2 : Nat) :
    ((dispatchLine env line c).1).map eraseId =
      ((dispatchLine env line c2).1).map eraseId := by
  unfold dispatchLine parseJsonLog parseStructuredTextLog parsePlainTextLog
  by_cases hb : startsWithL (jsTrim line).data ['\x7b'] = true
  · rw [if_pos hb, if_pos hb]
    cases hj : env.jsonParse line with
    | some parsed => rfl
    | none =>
      rcases hs : matchStructured line.data with _ | ⟨a, b, r⟩
      · rfl
      · rfl
  · rw [if_neg hb, if_neg hb]
    rcases hs : matchStructured line.data with _ | ⟨a, b, r⟩
    · rfl
    · rfl

lemma parseLines_eraseId (env : JsEnv) :
    ∀ (ls : List String) (c c2 : Nat),
      (parseLines env ls c).1.map eraseId = (parseLines env ls c2).1.map eraseId := by
  intro ls
  induction ls with
  | nil => intro c c2; rfl
  | cons line rest ih =>
    intro c c2
    obtain ⟨e1, hd1, _, _⟩ := dispatchLine_spec env line c
    obtain ⟨e2, hd2, _, _⟩ := dispatchLine_spec env line c2
    have he := dispatchLine_eraseId env line c c2
    rw [hd1, hd2] at he
    have he2 : eraseId e1 = eraseId e2 := by simpa using he
    simp only [parseLines, hd1, hd2, List.map_cons]
    rw [he2, ih (c + 1) (c2 + 1)]

lemma map_of_eraseId {α : Type} (f : LogEntry → α) (hf : ∀ e, f (eraseId e) = f e)
    {l1 l2 : List LogEntry} (h : l1.map eraseId = l2.map eraseId) :
    l1.map f = l2.map f := by
  calc l1.map f = (l1.map eraseId).map f := by
        rw [List.map_map]
        exact (List.map_congr_left (fun a _ => (hf a).symm))
    _ = (l2.map eraseId).map f := by rw [h]
    _ = l2.map f := by
        rw [List.map_map]
        exact List.map_congr_left (fun a _ => hf a)

lemma levelsOf_congr {l1 l2 : List LogEntry}
    (h : l1.map LogEntry.level = l2.map LogEntry.level) : levelsOf l1 = levelsOf l2 := by
  unfold levelsOf
  suffices hgen : ∀ (l1 l2 : List LogEntry),
      l1.map LogEntry.level = l2.map LogEntry.level → ∀ acc : List String,
      l1.foldl (fun acc e => addLevel acc (levelName e.level)) acc =
        l2.foldl (fun acc e => addLevel acc (levelName e.level)) acc by
    exact hgen l1 l2 h []
  intro l1
  induction l1 with
  | nil =>
    intro l2 h acc
    cases l2 with
    | nil => rfl
    | cons b bs => simp at h
  | cons a as ih =>
    intro l2 h acc
    cases l2 with
    | nil => simp at h
    | cons b bs =>
      simp only [List.map_cons, List.cons.injEq] at h
      simp only [List.foldl_cons, h.1]
      exact ih bs h.2 _

lemma filterMap_dt_congr (env : JsEnv) {l1 l2 : List LogEntry}
    (h : l1.map LogEntry.dt = l2.map LogEntry.dt) :
    l1.filterMap (fun e => env.dateParse e.dt) =
      l2.filterMap (fun e => env.dateParse e.dt) := by
  have h1 : ∀ l : List LogEntry, l.filterMap (fun e => env.dateParse e.dt) =
      (l.map LogEntry.dt).filterMap env.dateParse := by
    intro l
    rw [List.filterMap_map]
    rfl
  rw [h1, h1, h]

lemma buildBuckets_eraseId (env : JsEnv) (mn : Int) (bs : ℚ) :
    ∀ (es : List LogEntry) (m : List (Int × TimelineBucket)),
      buildBuckets env mn bs (es.map eraseId) m = buildBuckets env mn bs es m := by
  intro es
  induction es with
  | nil => intro m; rfl
  | cons e rest ih =>
    intro m
    simp only [List.map_cons, buildBuckets]
    rw [show (eraseId e).dt = e.dt from rfl, show (eraseId e).level = e.level from rfl]
    cases h : env.dateParse e.dt with
    | none => simp only [h, ih]
    | some t => simp only [h, ih]

lemma bucketize_eraseId (env : JsEnv) (es : List LogEntry) :
    bucketize env (es.map eraseId) = bucketize env es := by
  cases es with
  | nil => rfl
  | cons e rest =>
    simp only [bucketize, List.map_cons]
    have hfm : (eraseId e :: rest.map eraseId).filterMap (fun x => env.dateParse x.dt)
        = (e :: rest).filterMap (fun x => env.dateParse x.dt) := by
      have h : (eraseId e :: rest.map eraseId) = (e :: rest).map eraseId := rfl
      rw [h]
      exact filterMap_dt_congr env
        (map_of_eraseId LogEntry.dt (fun _ => rfl)
          (by rw [List.map_map]; exact List.map_congr_left (fun a _ => rfl)))
    rw [hfm]
    cases hc : (e :: rest).filterMap (fun x => env.dateParse x.dt) with
    | nil => rfl
    | cons d ds =>
      have hlen : (eraseId e :: rest.map eraseId).length = (e :: rest).length := by
        simp
      rw [hlen, show (eraseId e :: rest.map eraseId) = (e :: rest).map eraseId from rfl]
      simp only [buildBuckets_eraseId]

/-- C9, counterexample: two invocations of `parseLogFile` on identical
content within one process (the second sees the counter state left by the
first, as the module-level `idCounter` does) produce different results —
the entry ids differ — so parsing is not referentially transparent in the
claimed sense. -/
theorem c9_counterexample :
    ¬ ((parseLogFile envC "hello" 0).1.entries.map LogEntry.id =
       (parseLogFile envC "hello"
         ((parseLogFile envC "hello" 0).2)).1.entries.map LogEntry.id) := by
  decide

/-- C9 (amended): `filterLogs` and the bucketizer are pure functions of
their parameters, and `parseLogFile` is deterministic given the id-counter
state and the clock; the counter influences only the generated ids — two
invocations at different counter states agree on everything except ids
(entries up to id erasure, level set, date range), and ids are irrelevant to
filtering and bucketing. -/
theorem c9_purity_amended :
    ∀ (env : JsEnv) (content : String) (c1 c2 : Nat),
      (parseLogFile env content c1).1.entries.map eraseId =
        (parseLogFile env content c2).1.entries.map eraseId ∧
      (parseLogFile env content c1).1.levels =
        (parseLogFile env content c2).1.levels ∧
      (parseLogFile env content c1).1.dateRange =
        (parseLogFile env content c2).1.dateRange ∧
      (∀ (es : List LogEntry) (s : String) (ls : List LogLevel),
        filterLogs env (es.map eraseId) s ls = (filterLogs env es s ls).map eraseId) ∧
      (∀ es : List LogEntry, bucketize env (es.map eraseId) = bucketize env es) := by
  intro env content c1 c2
  have hbase : (parseLogFile env content c1).1.entries.map eraseId =
      (parseLogFile env content c2).1.entries.map eraseId :=
    parseLines_eraseId env (retainedLines content) c1 c2
  refine ⟨hbase, ?_, ?_, ?_, bucketize_eraseId env⟩
  · have h1 : (parseLogFile env content c1).1.levels =
        sortStrs (levelsOf (parseLogFile env content c1).1.entries) := rfl
    have h2 : (parseLogFile env content c2).1.levels =
        sortStrs (levelsOf (parseLogFile env content c2).1.entries) := rfl
    rw [h1, h2]
    congr 1
    exact levelsOf_congr (map_of_eraseId LogEntry.level (fun _ => rfl) hbase)
  · rw [parseLogFile_dateRange_eq, parseLogFile_dateRange_eq]
    unfold dateRangeOf
    rw [filterMap_dt_congr env (map_of_eraseId LogEntry.dt (fun _ => rfl) hbase)]
  · intro es s ls
    show (es.map eraseId).filter _ = (es.filter _).map eraseId
    rw [List.filter_map]
    congr 1

lemma bucketSizeOf_zero (n : Nat) : bucketSizeOf 0 n = 1 := by
  unfold bucketSizeOf
  rw [zero_div]
  simp

lemma filterMap_const_of_all (env : JsEnv) (t : Int) :
    ∀ es : List LogEntry, (∀ e ∈ es, env.dateParse e.dt = some t) →
      es.filterMap (fun e => env.dateParse e.dt) = es.map (fun _ => t) := by
  intro es
  induction es with
  | nil => intro _; rfl
  | cons e rest ih =>
    intro h
    rw [List.filterMap_cons, h e (by simp), List.map_cons,
      ih (fun x hx => h x (by simp [hx]))]

lemma foldl_min_const (t : Int) :
    ∀ l : List Int, (∀ x ∈ l, x = t) → l.foldl min t = t := by
  intro l
  induction l with
  | nil => intro _; rfl
  | cons a as ih =>
    intro h
    rw [List.foldl_cons, h a (by simp), min_self]
    exact ih (fun x hx => h x (by simp [hx]))

lemma foldl_max_const (t : Int) :
    ∀ l : List Int, (∀ x ∈ l, x = t) → l.foldl max t = t := by
  intro l
  induction l with
  | nil => intro _; rfl
  | cons a as ih =>
    intro h
    rw [List.foldl_cons, h a (by simp), max_self]
    exact ih (fun x hx => h x (by simp [hx]))

lemma buildBuckets_cons_valid (env : JsEnv) (mn : Int) (bs : ℚ) (e : LogEntry)
    (rest : List LogEntry) (m : List (Int × TimelineBucket)) (t : Int)
    (h : env.dateParse e.dt = some t) :
    buildBuckets env mn bs (e :: rest) m =
      buildBuckets env mn bs rest
        (let bucketIndex : Int := ⌊((t - mn : Int) : ℚ) / bs⌋
         let bucketTime : ℚ := (mn : ℚ) + (bucketIndex : ℚ) * bs
         let m1 := if (assocGet m bucketIndex).isSome then m
                   else assocSet m bucketIndex (emptyBucket bucketTime)
         match assocGet m1 bucketIndex with
         | some b => assocSet m1 bucketIndex (incBucket b e.level)
         | none => m1) := by
  simp only [buildBuckets, h]

lemma idx_self_zero (t : Int) : ⌊((t - t : Int) : ℚ) / (1 : ℚ)⌋ = (0 : Int) := by
  simp

lemma buildBuckets_const (env : JsEnv) (t : Int) :
    ∀ (l : List LogEntry) (b : TimelineBucket),
      (∀ e ∈ l, env.dateParse e.dt = some t) →
      ∃ b2 : TimelineBucket, buildBuckets env t 1 l [(0, b)] = [(0, b2)] ∧
        b2.count = b.count + l.length := by
  intro l
  induction l with
  | nil => intro b _; exact ⟨b, rfl, by simp⟩
  | cons e rest ih =>
    intro b h
    have he : env.dateParse e.dt = some t := h e (by simp)
    rw [buildBuckets_cons_valid env t 1 e rest [(0, b)] t he]
    have harg : (let bucketIndex : Int := ⌊((t - t : Int) : ℚ) / (1 : ℚ)⌋
         let bucketTime : ℚ := (t : ℚ) + (bucketIndex : ℚ) * 1
         let m1 := if (assocGet [(0, b)] bucketIndex).isSome then [(0, b)]
                   else assocSet [(0, b)] bucketIndex (emptyBucket bucketTime)
         match assocGet m1 bucketIndex with
         | some b0 => assocSet m1 bucketIndex (incBucket b0 e.level)
         | none => m1) = [((0 : Int), incBucket b e.level)] := by
      simp only [idx_self_zero]
      simp [assocGet, assocSet]
    rw [harg]
    obtain ⟨b2, hb2, hc2⟩ := ih (incBucket b e.level) (fun x hx => h x (by simp [hx]))
    refine ⟨b2, hb2, ?_⟩
    have hcn : (incBucket b e.level).count = b.count + 1 := rfl
    simp only [List.length_cons]
    omega

/-- C8: when all entries share one valid timestamp the range is zero, the
bucket width falls back to 1 time unit instead of `range / bucketCount`
(avoiding a division by zero when computing bucket indices), and exactly one
bucket is produced containing all the entries. -/
theorem c8_zero_range_single_bucket :
    ∀ (env : JsEnv) (es : List LogEntry) (t : Int),
      es ≠ [] →
      (∀ e ∈ es, env.dateParse e.dt = some t) →
      bucketSizeOf 0 es.length = 1 ∧
      ∃ b : TimelineBucket, bucketize env es = [b] ∧ b.count = es.length := by
  intro env es t hne hall
  refine ⟨bucketSizeOf_zero _, ?_⟩
  cases es with
  | nil => exact absurd rfl hne
  | cons e rest =>
    simp only [bucketize]
    rw [filterMap_const_of_all env t (e :: rest) hall]
    simp only [List.map_cons]
    have hmin : (rest.map (fun _ => t)).foldl min t = t :=
      foldl_min_const t _ (by simp)
    have hmax : (rest.map (fun _ => t)).foldl max t = t :=
      foldl_max_const t _ (by simp)
    rw [hmin, hmax]
    have hr0 : ((t - t : Int) : ℚ) = 0 := by simp
    rw [hr0, bucketSizeOf_zero]
    rw [buildBuckets_cons_valid env t 1 e rest [] t (hall e (by simp))]
    have harg : (let bucketIndex : Int := ⌊((t - t : Int) : ℚ) / (1 : ℚ)⌋
         let bucketTime : ℚ := (t : ℚ) + (bucketIndex : ℚ) * 1
         let m1 := if (assocGet [] bucketIndex).isSome then ([] : List (Int × TimelineBucket))
                   else assocSet [] bucketIndex (emptyBucket bucketTime)
         match assocGet m1 bucketIndex with
         | some b0 => assocSet m1 bucketIndex (incBucket b0 e.level)
         | none => m1) =
        [((0 : Int), incBucket (emptyBucket ((t : ℚ) + ((0 : Int) : ℚ) * 1)) e.level)] := by
      simp only [idx_self_zero]
      simp [assocGet, assocSet]
    rw [harg]
    obtain ⟨b2, hb2, hc2⟩ := buildBuckets_const env t rest
      (incBucket (emptyBucket ((t : ℚ) + ((0 : Int) : ℚ) * 1)) e.level)
      (fun x hx => hall x (by simp [hx]))
    rw [hb2]
    refine ⟨b2, rfl, ?_⟩
    have hcn : (incBucket (emptyBucket ((t : ℚ) + ((0 : Int) : ℚ) * 1)) e.level).count
        = 1 := rfl
    simp only [List.length_cons]
    omega

/-- C8, witness: two concrete entries at the same instant produce exactly one
bucket containing both. -/
theorem c8_zero_range_single_bucket_witness :
    ∃ b : TimelineBucket, bucketize envC [entryAtZero, entryAtZero] = [b] ∧
      b.count = 2 :=
  (c8_zero_range_single_bucket envC [entryAtZero, entryAtZero] 0
    (by simp) (by decide)).2

lemma assocGet_eq_none_iff (m : List (Int × TimelineBucket)) (k : Int) :
    assocGet m k = none ↔ k ∉ m.map Prod.fst := by
  induction m with
  | nil => simp [assocGet]
  | cons p ps ih =>
    simp only [List.map_cons, List.mem_cons, assocGet]
    by_cases hp : p.1 = k
    · simp [hp]
    · have hp2 : ¬ k = p.1 := fun h => hp h.symm
      simp [hp, hp2, ih]

lemma assocGet_mem (m : List (Int × TimelineBucket)) (k : Int) (b : TimelineBucket)
    (h : assocGet m k = some b) : (k, b) ∈ m := by
  induction m with
  | nil => simp [assocGet] at h
  | cons p ps ih =>
    by_cases hp : p.1 = k
    · simp only [assocGet, hp, if_pos] at h
      cases h
      subst hp
      exact List.mem_cons_self p ps
    · simp only [assocGet, hp, if_neg] at h
      exact List.mem_cons_of_mem p (ih h)

lemma keys_assocSet_present (m : List (Int × TimelineBucket)) (k : Int)
    (v b : TimelineBucket) (h : assocGet m k = some b) :
    (assocSet m k v).map Prod.fst = m.map Prod.fst := by
  induction m with
  | nil => simp [assocGet] at h
  | cons p ps ih =>
    by_cases hp : p.1 = k
    · simp [assocSet, hp]
    · simp only [assocGet, hp, if_neg] at h
      simp [assocSet, hp, ih h]

lemma mem_assocSet (m : List (Int × TimelineBucket)) (k : Int) (v : TimelineBucket)
    (hnd : (m.map Prod.fst).Nodup) :
    ∀ p ∈ assocSet m k v, p = (k, v) ∨ (p ∈ m ∧ ¬ p.1 = k) := by
  induction m with
  | nil =>
    intro p hp
    simp [assocSet] at hp
    exact Or.inl hp
  | cons q qs ih =>
    intro p hp
    simp only [List.map_cons, List.nodup_cons] at hnd
    by_cases hq : q.1 = k
    · simp only [assocSet, hq, if_pos] at hp
      rcases List.mem_cons.mp hp with h | h
      · exact Or.inl h
      · right
        refine ⟨List.mem_cons_of_mem q h, ?_⟩
        intro hk
        exact hnd.1 (hq ▸ hk ▸ List.mem_map_of_mem Prod.fst h)
    · simp only [assocSet, hq, if_neg] at hp
      rcases List.mem_cons.mp hp with h | h
      · exact Or.inr ⟨h ▸ List.mem_cons_self q qs, h ▸ hq⟩
      · rcases ih hnd.2 p h with h1 | ⟨h1, h2⟩
        · exact Or.inl h1
        · exact Or.inr ⟨List.mem_cons_of_mem q h1, h2⟩

lemma keyCount_append (env : JsEnv) (mn : Int) (bs : ℚ) (seen : List LogEntry)
    (e : LogEntry) (k : Int) :
    keyCount env mn bs (seen ++ [e]) k =
      keyCount env mn bs seen k +
        (if entryIdx env mn bs e = some k then 1 else 0) := by
  unfold keyCount
  rw [List.filter_append, List.length_append]
  congr 1
  by_cases h : entryIdx env mn bs e = some k <;> simp [h]

lemma keyLvlCount_append (env : JsEnv) (mn : Int) (bs : ℚ) (seen : List LogEntry)
    (e : LogEntry) (k : Int) (l : LogLevel) :
    keyLvlCount env mn bs (seen ++ [e]) k l =
      keyLvlCount env mn bs seen k l +
        (if entryIdx env mn bs e = some k ∧ e.level = l then 1 else 0) := by
  unfold keyLvlCount
  rw [List.filter_append, List.length_append]
  congr 1
  by_cases h : entryIdx env mn bs e = some k ∧ e.level = l <;> simp [h]

lemma length_filter_and_le {α : Type} (p q : α → Prop) [DecidablePred p]
    [DecidablePred q] :
    ∀ l : List α, (l.filter (fun a => decide (p a ∧ q a))).length ≤
      (l.filter (fun a => decide (p a))).length := by
  intro l
  induction l with
  | nil => exact Nat.le_refl 0
  | cons a as ih =>
    simp only [List.filter_cons]
    by_cases h1 : p a ∧ q a
    · rw [if_pos (by simpa using h1), if_pos (by simpa using h1.1)]
      simpa using ih
    · by_cases h2 : p a
      · rw [if_neg (by simpa using h1), if_pos (by simpa using h2)]
        simp only [List.length_cons]
        omega
      · rw [if_neg (by simpa using h1), if_neg (by simpa using h2)]
        exact ih

lemma keyLvlCount_le_keyCount (env : JsEnv) (mn : Int) (bs : ℚ)
    (seen : List LogEntry) (k : Int) (l : LogLevel) :
    keyLvlCount env mn bs seen k l ≤ keyCount env mn bs seen k :=
  length_filter_and_le (fun e => entryIdx env mn bs e = some k)
    (fun e => e.level = l) seen

lemma bucketMapInv_skip (env : JsEnv) (mn : Int) (bs : ℚ) (seen : List LogEntry)
    (m : List (Int × TimelineBucket)) (e : LogEntry)
    (hidx : entryIdx env mn bs e = none)
    (h : bucketMapInv env mn bs seen m) :
    bucketMapInv env mn bs (seen ++ [e]) m := by
  obtain ⟨hnd, hcnt, hcov⟩ := h
  refine ⟨hnd, ?_, ?_⟩
  · intro p hp
    obtain ⟨h0, h1, h2⟩ := hcnt p hp
    refine ⟨h0, ?_, ?_⟩
    · rw [keyCount_append, h1, if_neg (by simp [hidx]), Nat.add_zero]
    · intro l
      rw [keyLvlCount_append, h2 l, if_neg (by simp [hidx]), Nat.add_zero]
  · intro k hk
    rw [keyCount_append, hcov k hk, if_neg (by simp [hidx])]

lemma bucketMapInv_hit (env : JsEnv) (mn : Int) (bs : ℚ) (seen : List LogEntry)
    (m : List (Int × TimelineBucket)) (e : LogEntry) (idx : Int)
    (b : TimelineBucket)
    (hei : entryIdx env mn bs e = some idx)
    (hget : assocGet m idx = some b)
    (h : bucketMapInv env mn bs seen m) :
    bucketMapInv env mn bs (seen ++ [e]) (assocSet m idx (incBucket b e.level)) := by
  obtain ⟨hnd, hcnt, hcov⟩ := h
  have hbmem : (idx, b) ∈ m := assocGet_mem m idx b hget
  have hb0 : b.timestamp = (mn : ℚ) + (idx : ℚ) * bs := (hcnt (idx, b) hbmem).1
  have hb1 : b.count = keyCount env mn bs seen idx := (hcnt (idx, b) hbmem).2.1
  have hb2 : ∀ l : LogLevel, b.byLevel l = keyLvlCount env mn bs seen idx l :=
    (hcnt (idx, b) hbmem).2.2
  refine ⟨?_, ?_, ?_⟩
  · rw [keys_assocSet_present m idx _ b hget]
    exact hnd
  · intro p hp
    rcases mem_assocSet m idx _ hnd p hp with hpe | ⟨hpm, hpk⟩
    · subst hpe
      refine ⟨?_, ?_, ?_⟩
      · exact hb0
      · show (incBucket b e.level).count = keyCount env mn bs (seen ++ [e]) idx
        have hcn : (incBucket b e.level).count = b.count + 1 := rfl
        rw [hcn, hb1, keyCount_append, if_pos hei]
      · intro l
        show (incBucket b e.level).byLevel l = keyLvlCount env mn bs (seen ++ [e]) idx l
        by_cases hl : l = e.level
        · have hbn : (incBucket b e.level).byLevel l = b.byLevel l + 1 := by
            simp [incBucket, hl]
          rw [hbn, hb2 l, keyLvlCount_append, if_pos ⟨hei, hl.symm⟩]
        · have hbn : (incBucket b e.level).byLevel l = b.byLevel l := by
            simp [incBucket, hl]
          rw [hbn, hb2 l, keyLvlCount_append, if_neg (fun hc => hl hc.2.symm),
            Nat.add_zero]
    · have h0 : p.2.timestamp = (mn : ℚ) + (p.1 : ℚ) * bs := (hcnt p hpm).1
      have h1 : p.2.count = keyCount env mn bs seen p.1 := (hcnt p hpm).2.1
      have h2 : ∀ l : LogLevel, p.2.byLevel l = keyLvlCount env mn bs seen p.1 l :=
        (hcnt p hpm).2.2
      have hne : ¬ entryIdx env mn bs e = some p.1 := by
        rw [hei]
        intro hc
        exact hpk (Option.some.inj hc).symm
      refine ⟨h0, ?_, ?_⟩
      · rw [keyCount_append, if_neg hne, h1, Nat.add_zero]
      · intro l
        rw [keyLvlCount_append, if_neg (fun hc => hne hc.1), h2 l, Nat.add_zero]
  · intro k hk
    rw [keys_assocSet_present m idx _ b hget] at hk
    have hkidx : ¬ k = idx := by
      intro he2
      subst he2
      exact hk (List.mem_map_of_mem Prod.fst hbmem)
    have hne : ¬ entryIdx env mn bs e = some k := by
      rw [hei]
      intro hc
      exact hkidx (Option.some.inj hc).symm
    rw [keyCount_append, hcov k hk, if_neg hne]

lemma bucketMapInv_fresh (env : JsEnv) (mn : Int) (bs : ℚ) (seen : List LogEntry)
    (m : List (Int × TimelineBucket)) (idx : Int) (bt : ℚ)
    (hget : assocGet m idx = none)
    (hbt : bt = (mn : ℚ) + (idx : ℚ) * bs)
    (h : bucketMapInv env mn bs seen m) :
    bucketMapInv env mn bs seen (assocSet m idx (emptyBucket bt)) := by
  obtain ⟨hnd, hcnt, hcov⟩ := h
  have hknotin : idx ∉ m.map Prod.fst := (assocGet_eq_none_iff m idx).mp hget
  rw [assocSet_of_get_none m idx _ hget]
  refine ⟨?_, ?_, ?_⟩
  · rw [List.map_append]
    exact List.Nodup.append hnd (List.nodup_singleton _)
      (fun a ha hb => by
        simp only [List.map_cons, List.map_nil, List.mem_singleton] at hb
        subst hb
        exact hknotin ha)
  · intro p hp
    rcases List.mem_append.mp hp with hpm | hpe
    · exact hcnt p hpm
    · simp only [List.mem_singleton] at hpe
      subst hpe
      refine ⟨?_, ?_, ?_⟩
      · exact hbt
      · show (emptyBucket bt).count = keyCount env mn bs seen idx
        have h0 : (emptyBucket bt).count = 0 := rfl
        rw [h0, hcov idx hknotin]
      · intro l
        show (emptyBucket bt).byLevel l = keyLvlCount env mn bs seen idx l
        have h0 : (emptyBucket bt).byLevel l = 0 := rfl
        have hle := keyLvlCount_le_keyCount env mn bs seen idx l
        rw [hcov idx hknotin] at hle
        omega
  · intro k hk
    rw [List.map_append] at hk
    simp only [List.map_cons, List.map_nil, List.mem_append,
      List.mem_singleton, not_or] at hk
    exact hcov k hk.1

lemma buildBuckets_step_valid (env : JsEnv) (mn : Int) (bs : ℚ) (e : LogEntry)
    (rest : List LogEntry) (m : List (Int × TimelineBucket)) (t : Int)
    (h : env.dateParse e.dt = some t) :
    buildBuckets env mn bs (e :: rest) m =
      buildBuckets env mn bs rest
        (match assocGet m ⌊((t - mn : Int) : ℚ) / bs⌋ with
         | some b => assocSet m ⌊((t - mn : Int) : ℚ) / bs⌋ (incBucket b e.level)
         | none => assocSet (assocSet m ⌊((t - mn : Int) : ℚ) / bs⌋
             (emptyBucket ((mn : ℚ) + ((⌊((t - mn : Int) : ℚ) / bs⌋ : Int) : ℚ) * bs)))
             ⌊((t - mn : Int) : ℚ) / bs⌋
             (incBucket (emptyBucket ((mn : ℚ) +
               ((⌊((t - mn : Int) : ℚ) / bs⌋ : Int) : ℚ) * bs)) e.level)) := by
  simp only [buildBuckets, h]
  cases hget : assocGet m ⌊((t - mn : Int) : ℚ) / bs⌋ with
  | some b =>
    rw [if_pos (show (some b).isSome = true from rfl), hget]
  | none =>
    rw [if_neg (show ¬ (none : Option TimelineBucket).isSome = true from by simp),
      assocGet_assocSet_self]

lemma buildBuckets_inv (env : JsEnv) (mn : Int) (bs : ℚ) :
    ∀ (es seen : List LogEntry) (m : List (Int × TimelineBucket)),
      bucketMapInv env mn bs seen m →
      bucketMapInv env mn bs (seen ++ es) (buildBuckets env mn bs es m) := by
  intro es
  induction es with
  | nil =>
    intro seen m h
    simpa using h
  | cons e rest ih =>
    intro seen m hinv
    have heq : seen ++ e :: rest = (seen ++ [e]) ++ rest := by simp
    rw [heq]
    cases hdp : env.dateParse e.dt with
    | none =>
      have hidx : entryIdx env mn bs e = none := by simp [entryIdx, hdp]
      simp only [buildBuckets, hdp]
      exact ih (seen ++ [e]) m (bucketMapInv_skip env mn bs seen m e hidx hinv)
    | some t =>
      have hei : entryIdx env mn bs e = some ⌊((t - mn : Int) : ℚ) / bs⌋ := by
        simp [entryIdx, hdp]
      rw [buildBuckets_step_valid env mn bs e rest m t hdp]
      cases hget : assocGet m ⌊((t - mn : Int) : ℚ) / bs⌋ with
      | some b =>
        exact ih (seen ++ [e]) _
          (bucketMapInv_hit env mn bs seen m e _ b hei hget hinv)
      | none =>
        exact ih (seen ++ [e]) _
          (bucketMapInv_hit env mn bs seen
            (assocSet m ⌊((t - mn : Int) : ℚ) / bs⌋
              (emptyBucket ((mn : ℚ) + ((⌊((t - mn : Int) : ℚ) / bs⌋ : Int) : ℚ) * bs)))
            e _ _ hei
            (assocGet_assocSet_self m ⌊((t - mn : Int) : ℚ) / bs⌋ _)
            (bucketMapInv_fresh env mn bs seen m _ _ hget rfl hinv))

lemma filter_and_eq_filter_filter {α : Type} (p q : α → Prop) [DecidablePred p]
    [DecidablePred q] :
    ∀ l : List α, l.filter (fun a => decide (p a ∧ q a)) =
      (l.filter (fun a => decide (p a))).filter (fun a => decide (q a)) := by
  intro l
  induction l with
  | nil => rfl
  | cons a as ih =>
    simp only [List.filter_cons]
    by_cases hp : p a <;> by_cases hq : q a
    · rw [if_pos (by simpa using And.intro hp hq), if_pos (by simpa using hp),
        List.filter_cons, if_pos (by simpa using hq), ih]
    · rw [if_neg (by simpa using fun hc : p a ∧ q a => hq hc.2),
        if_pos (by simpa using hp), List.filter_cons, if_neg (by simpa using hq), ih]
    · rw [if_neg (by simpa using fun hc : p a ∧ q a => hp hc.1),
        if_neg (by simpa using hp), ih]
    · rw [if_neg (by simpa using fun hc : p a ∧ q a => hp hc.1),
        if_neg (by simpa using hp), ih]

lemma length_eq_sum_level_filters (xs : List LogEntry) :
    xs.length = (xs.filter (fun e => decide (e.level = LogLevel.debug))).length +
      (xs.filter (fun e => decide (e.level = LogLevel.info))).length +
      (xs.filter (fun e => decide (e.level = LogLevel.warn))).length +
      (xs.filter (fun e => decide (e.level = LogLevel.error))).length +
      (xs.filter (fun e => decide (e.level = LogLevel.fatal))).length := by
  induction xs with
  | nil => rfl
  | cons e rest ih =>
    simp only [List.filter_cons, List.length_cons]
    cases he : e.level <;> simp [he] <;> omega

/-- Sorted insertion keeps the key order of an already key-sorted list. -/
lemma insertSorted_pairwise (p : Int × TimelineBucket) :
    ∀ l : List (Int × TimelineBucket),
      l.Pairwise (fun a b => a.1 ≤ b.1) →
      (insertSorted p l).Pairwise (fun a b => a.1 ≤ b.1) := by
  intro l
  induction l with
  | nil =>
    intro _
    simp [insertSorted]
  | cons q qs ih =>
    intro h
    rw [List.pairwise_cons] at h
    by_cases hpq : p.1 ≤ q.1
    · simp only [insertSorted]
      rw [if_pos hpq, List.pairwise_cons]
      refine ⟨?_, ?_⟩
      · intro r hr
        rcases List.mem_cons.mp hr with hrq | hr2
        · rw [hrq]
          exact hpq
        · exact le_trans hpq (h.1 r hr2)
      · rw [List.pairwise_cons]
        exact h
    · simp only [insertSorted]
      rw [if_neg hpq, List.pairwise_cons]
      refine ⟨?_, ?_⟩
      · intro r hr
        have hr2 : r ∈ p :: qs := (insertSorted_perm p qs).mem_iff.mp hr
        rcases List.mem_cons.mp hr2 with hrp | hr3
        · rw [hrp]
          omega
        · exact h.1 r hr3
      · exact ih h.2

/-- The materialized bucket list is sorted ascending by index. -/
lemma sortByKey_pairwise (m : List (Int × TimelineBucket)) :
    (sortByKey m).Pairwise (fun a b => a.1 ≤ b.1) := by
  induction m with
  | nil => simp [sortByKey]
  | cons p ps ih =>
    have h0 : sortByKey (p :: ps) = insertSorted p (sortByKey ps) := rfl
    rw [h0]
    exact insertSorted_pairwise p _ ih

/-- In a spec bucket the count is the sum of the five per-level counters. -/
lemma bucketSpecAt_count_eq_sum (env : JsEnv) (mn : Int) (bs : ℚ)
    (es : List LogEntry) (k : Int) :
    (bucketSpecAt env mn bs es k).count =
      (bucketSpecAt env mn bs es k).byLevel LogLevel.debug +
      (bucketSpecAt env mn bs es k).byLevel LogLevel.info +
      (bucketSpecAt env mn bs es k).byLevel LogLevel.warn +
      (bucketSpecAt env mn bs es k).byLevel LogLevel.error +
      (bucketSpecAt env mn bs es k).byLevel LogLevel.fatal := by
  simp only [bucketSpecAt]
  rw [filter_and_eq_filter_filter (fun x => entryIdx env mn bs x = some k)
      (fun x => x.level = LogLevel.debug),
    filter_and_eq_filter_filter (fun x => entryIdx env mn bs x = some k)
      (fun x => x.level = LogLevel.info),
    filter_and_eq_filter_filter (fun x => entryIdx env mn bs x = some k)
      (fun x => x.level = LogLevel.warn),
    filter_and_eq_filter_filter (fun x => entryIdx env mn bs x = some k)
      (fun x => x.level = LogLevel.error),
    filter_and_eq_filter_filter (fun x => entryIdx env mn bs x = some k)
      (fun x => x.level = LogLevel.fatal)]
  exact length_eq_sum_level_filters
    (es.filter (fun x => decide (entryIdx env mn bs x = some k)))

/-- The bucketizer output on a non-empty list of valid instants is exactly the
map of the spec bucket over the sorted list of occupied indices. -/
lemma bucketize_char (env : JsEnv) (e : LogEntry) (rest : List LogEntry)
    (d : Int) (ds : List Int) (mn : Int) (bs : ℚ)
    (hfm : (e :: rest).filterMap (fun x => env.dateParse x.dt) = d :: ds)
    (hmn : mn = ds.foldl min d)
    (hbs : bs = bucketSizeOf (((ds.foldl max d) - ds.foldl min d : Int) : ℚ)
      (e :: rest).length) :
    ∃ ks : List Int, ks.Pairwise (fun a b => a < b) ∧
      bucketize env (e :: rest) = ks.map (bucketSpecAt env mn bs (e :: rest)) := by
  have hbz : bucketize env (e :: rest) =
      (sortByKey (buildBuckets env mn bs (e :: rest) [])).map (fun p => p.2) := by
    subst hmn
    subst hbs
    simp only [bucketize]
    rw [hfm]
  have hinv0 : bucketMapInv env mn bs [] [] := by
    refine ⟨List.nodup_nil, ?_, ?_⟩
    · intro p hp
      simp at hp
    · intro k _
      rfl
  have hinv := buildBuckets_inv env mn bs (e :: rest) [] [] hinv0
  simp only [List.nil_append] at hinv
  refine ⟨(sortByKey (buildBuckets env mn bs (e :: rest) [])).map Prod.fst, ?_, ?_⟩
  · have hnd2 : ((sortByKey (buildBuckets env mn bs (e :: rest) [])).map Prod.fst).Nodup :=
      (((sortByKey_perm (buildBuckets env mn bs (e :: rest) [])).map Prod.fst).nodup_iff).mpr
        hinv.1
    have hle : (sortByKey (buildBuckets env mn bs (e :: rest) [])).Pairwise
        (fun a b => a.1 ≤ b.1) := sortByKey_pairwise _
    exact List.pairwise_map.mpr
      ((hle.and (List.pairwise_map.mp hnd2)).imp (fun h => lt_of_le_of_ne h.1 h.2))
  · rw [hbz, List.map_map]
    refine List.map_congr_left ?_
    intro p hp
    have hpM : p ∈ buildBuckets env mn bs (e :: rest) [] :=
      ((sortByKey_perm (buildBuckets env mn bs (e :: rest) [])).mem_iff).mp hp
    obtain ⟨hts, hc1, hc2⟩ := hinv.2.1 p hpM
    show p.2 = bucketSpecAt env mn bs (e :: rest) p.1
    have hbl : p.2.byLevel = (bucketSpecAt env mn bs (e :: rest) p.1).byLevel := by
      funext l
      rw [hc2 l]
      rfl
    have hcn : p.2.count = (bucketSpecAt env mn bs (e :: rest) p.1).count := by
      rw [hc1]
      rfl
    have hts2 : p.2.timestamp = (bucketSpecAt env mn bs (e :: rest) p.1).timestamp := by
      rw [hts]
      rfl
    calc p.2 = ⟨p.2.timestamp, p.2.count, p.2.byLevel⟩ := rfl
      _ = bucketSpecAt env mn bs (e :: rest) p.1 := by rw [hts2, hcn, hbl]

/-- C10: whenever the input has at least one entry with a valid instant (the
only case in which buckets exist), the bucketizer output is exactly the map,
over the strictly ascending list of occupied bucket indices, of the bucket
demanded by the claim at that index: start instant `minTime + index * width`,
count = number of input entries assigned to that index, and a per-level
record, total over the five levels (modelled as a total function,
zero-initialized at creation), counting per level exactly the input entries
assigned to that index and carrying that level; in particular every produced
bucket's count is the sum of its five per-level counters. -/
theorem c10_bucket_level_invariants :
    ∀ (env : JsEnv) (es : List LogEntry) (d : Int) (ds : List Int),
      es.filterMap (fun e => env.dateParse e.dt) = d :: ds →
      ∃ ks : List Int, ks.Pairwise (fun a b => a < b) ∧
        bucketize env es = ks.map (bucketSpecAt env (ds.foldl min d)
          (bucketSizeOf (((ds.foldl max d) - ds.foldl min d : Int) : ℚ) es.length) es) ∧
        ∀ b ∈ bucketize env es,
          b.count = b.byLevel LogLevel.debug + b.byLevel LogLevel.info +
            b.byLevel LogLevel.warn + b.byLevel LogLevel.error +
            b.byLevel LogLevel.fatal := by
  intro env es d ds hfm
  cases es with
  | nil => simp at hfm
  | cons e rest =>
    obtain ⟨ks, hks, heq⟩ := bucketize_char env e rest d ds _ _ hfm rfl rfl
    refine ⟨ks, hks, heq, ?_⟩
    intro b hb
    rw [heq] at hb
    obtain ⟨k, hk, hkb⟩ := List.mem_map.mp hb
    rw [← hkb]
    exact bucketSpecAt_count_eq_sum env _ _ (e :: rest) k

/-- C10, witness: the characterization applied to a concrete singleton input
whose timestamp parses to instant 0. -/
theorem c10_bucket_level_invariants_witness :
    ([entryAtZero] : List LogEntry).filterMap (fun e => envC.dateParse e.dt) =
      (0 : Int) :: ([] : List Int) ∧
    (∃ ks : List Int, ks.Pairwise (fun a b => a < b) ∧
      bucketize envC [entryAtZero] = ks.map (bucketSpecAt envC
        (([] : List Int).foldl min 0)
        (bucketSizeOf (((([] : List Int).foldl max 0) -
            ([] : List Int).foldl min 0 : Int) : ℚ)
          ([entryAtZero] : List LogEntry).length)
        [entryAtZero]) ∧
      ∀ b ∈ bucketize envC [entryAtZero],
        b.count = b.byLevel LogLevel.debug + b.byLevel LogLevel.info +
          b.byLevel LogLevel.warn + b.byLevel LogLevel.error +
          b.byLevel LogLevel.fatal) :=
  ⟨by decide, c10_bucket_level_invariants envC [entryAtZero] 0 [] (by decide)⟩
